import Mathlib

set_option maxRecDepth 100000
set_option maxHeartbeats 4000000

/-!
Shallow embedding of `src/tiktoken_local.py`, a byte-level BPE tokenizer
(`GPT3Tokenizer`), together with theorems settling the specification claims.

Python strings are modelled as `List Char` (a Python `str` is a sequence of
code points); Python dicts are modelled as association lists with
insertion-order semantics (`dictInsert` overwrites in place, mirroring
`d[k] = v`); bytes are `Nat` values `< 256`.
-/

namespace TiktokenLocal

/-- A BPE symbol: a variable-length string (Python represents the word as a
tuple of strings). -/
abbrev Sym := List Char

/-- A token string (key of the encoder dict). -/
abbrev Token := List Char

/-- The instance merge cache `self.cache` : token string to joined BPE result. -/
abbrev Cache := List (Token × List Char)

/-- Conversion of a Lean string literal to the `List Char` model. -/
def chars (s : String) : List Char := s.data

/-- The space character (code point 32). -/
def spaceChar : Char := Char.ofNat 32

/-- Association-list lookup, first match wins (Python dict lookup; keys are
unique in every dict we build, so first match is the match). -/
def alookup {α β : Type} [DecidableEq α] : List (α × β) → α → Option β
  | [], _ => none
  | (k, v) :: rest, key => if k = key then some v else alookup rest key

/-- Python `d[k] = v`: overwrite the value at an existing key in place,
otherwise append the new binding at the end (insertion order). -/
def dictInsert {α β : Type} [DecidableEq α] : List (α × β) → α → β → List (α × β)
  | [], k, v => [(k, v)]
  | (k', v') :: rest, k, v =>
    if k' = k then (k', v) :: rest else (k', v') :: dictInsert rest k v

/-- Python `{v: k for k, v in d.items()}`: fold the items in insertion order,
later keys overwriting earlier ones (used for `self.decoder` and
`self.byte_decoder`). -/
def dictInvert {α β : Type} [DecidableEq β] (l : List (α × β)) : List (β × α) :=
  l.foldl (fun d e => dictInsert d e.2 e.1) []

/-! ## bytes_to_unicode (source lines 7-21) -/

/-- The initial list `bs` of `bytes_to_unicode`:
`list(range(ord("!"), ord("~")+1)) + list(range(ord("¡"), ord("¬")+1)) +
list(range(ord("®"), ord("ÿ")+1))`, i.e. 33..126, 161..172, 174..255. -/
def btuBs0 : List Nat := List.range' 33 94 ++ List.range' 161 12 ++ List.range' 174 82

/-- One step of the `for b in range(2**8)` loop of `bytes_to_unicode`: if `b`
is not already in `bs`, append `b` to `bs` and `256 + n` to `cs`. -/
def btuStep : (List Nat × List Nat × Nat) → Nat → (List Nat × List Nat × Nat) :=
  fun st b =>
    if b ∈ st.1 then st
    else (st.1 ++ [b], st.2.1 ++ [256 + st.2.2], st.2.2 + 1)

/-- The state `(bs, cs, n)` of `bytes_to_unicode` after its `for` loop. -/
def btuSt : List Nat × List Nat × Nat := (List.range 256).foldl btuStep (btuBs0, btuBs0, 0)

/-- `bytes_to_unicode()`: the association list `dict(zip(bs, cs))` sending each
byte value to its printable symbol (`cs = [chr(n) for n in cs]`). -/
def bytesToUnicode : List (Nat × Char) :=
  btuSt.1.zip (btuSt.2.1.map Char.ofNat)

/-- `self.byte_encoder[b]` (source line 85). -/
def byteEncoder (b : Nat) : Option Char := alookup bytesToUnicode b

/-- `self.byte_decoder = {v: k for k, v in self.byte_encoder.items()}`
(source line 86). -/
def byteDecoderList : List (Char × Nat) := dictInvert bytesToUnicode

/-- Lookup in `self.byte_decoder`. -/
def byteDecoder (c : Char) : Option Nat := alookup byteDecoderList c

/-! ## Vocabulary construction (source lines 43-72) -/

/-- The hardcoded initial `self.encoder` dict literal (source lines 43-65), in
insertion order. -/
def encoderBase : List (Token × Nat) :=
  [ (chars "<|endoftext|>", 50256)
  , (chars "Hello", 15496)
  , (chars "hello", 31373)
  , (chars "world", 995)
  , (chars "World", 2159)
  , (chars "how", 2129)
  , (chars "How", 2182)
  , (chars "are", 389)
  , (chars "you", 345)
  , (chars "doing", 2651)
  , (chars "today", 2371)
  , (chars " Hello", 18435)
  , (chars " World", 2159)
  , (chars " How", 2182)
  , (chars " are", 389)
  , (chars " you", 345)
  , (chars " doing", 2651)
  , (chars " today", 2371)
  , (chars "!", 0)
  , (chars "?", 30)
  , (chars " ", 220) ]

/-- The character string of the "Add basic characters" loop (source line 68). -/
def basicChars : List Char :=
  chars "abcdefghijklmnopqrstuvwxyzABCDEFGHIJKLMNOPQRSTUVWXYZ0123456789!\"#$%&\x27()*+,-./:;<=>?@[\\]^_`\x7b|\x7d~"

/-- `self.encoder` after the basic-character loop: for each character `c`, if
`c not in self.encoder` then `self.encoder[c] = len(self.encoder)`
(source lines 68-70). -/
def encoderList : List (Token × Nat) :=
  basicChars.foldl
    (fun enc c => if (alookup enc [c]).isSome then enc else dictInsert enc [c] enc.length)
    encoderBase

/-- Lookup in `self.encoder`. -/
def encLookup (t : Token) : Option Nat := alookup encoderList t

/-- `self.decoder = {v: k for k, v in self.encoder.items()}` (source line 72). -/
def decoderList : List (Nat × Token) := dictInvert encoderList

/-- Lookup in `self.decoder`. -/
def decLookup (id : Nat) : Option Token := alookup decoderList id

/-- `self.bpe_ranks` (source lines 75-83). -/
def bpeRanks : List ((Sym × Sym) × Nat) :=
  [ ((chars "H", chars "ello"), 0)
  , ((chars "w", chars "orld"), 1)
  , ((chars "t", chars "oday"), 2)
  , ((chars "do", chars "ing"), 3)
  , ((chars "a", chars "re"), 4)
  , ((chars "y", chars "ou"), 5)
  , ((chars "Ho", chars "w"), 6) ]

/-- Rank lookup `self.bpe_ranks.get(pair)` for a rank table given as an
association list. -/
def rankOf (ranks : List ((Sym × Sym) × Nat)) (p : Sym × Sym) : Option Nat :=
  alookup ranks p

/-! ## BPE merge engine (source lines 23-33 and 95-139) -/

/-- `get_pairs(word)` (source lines 23-33): the adjacent symbol pairs of a
word.  The Python version returns a set; we keep the list of occurrences
(duplicates are harmless: selection below only depends on which pair values
are present).  The Python function raises `IndexError` on an empty word
(`word[0]`); `bpe` below returns `none` before reaching that point. -/
def getPairs : List Sym → List (Sym × Sym)
  | x :: y :: rest => (x, y) :: getPairs (y :: rest)
  | _ => []

/-- `min(pairs, key=lambda pair: self.bpe_ranks.get(pair, float("inf")))`
followed by the `if bigram not in self.bpe_ranks: break` test: the in-table
pair of minimum rank, or `none` when no pair is in the table (then Python's
`min` returns some out-of-table pair, i.e. rank infinity, and the loop
breaks).  Ties keep the earlier pair; the Python tie order over the set is
unspecified, but the hardcoded rank table maps distinct pairs to distinct
ranks, so ties between in-table pairs do not occur. -/
def minRankPair (ranks : List ((Sym × Sym) × Nat)) : List (Sym × Sym) → Option ((Sym × Sym) × Nat)
  | [] => none
  | p :: ps =>
    match rankOf ranks p with
    | none => minRankPair ranks ps
    | some r =>
      match minRankPair ranks ps with
      | none => some (p, r)
      | some (q, rq) => if r ≤ rq then some (p, r) else some (q, rq)

/-- The inner merge loop of `bpe` (source lines 113-131): replace every
non-overlapping left-to-right occurrence of the adjacent pair `(a, b)` in the
word by the concatenated symbol `a ++ b`. -/
def mergeWord (a b : Sym) : List Sym → List Sym
  | [] => []
  | [x] => [x]
  | x :: y :: rest =>
    if x = a ∧ y = b then (a ++ b) :: mergeWord a b rest
    else x :: mergeWord a b (y :: rest)

/-- The outer `while True` loop of `bpe` (source lines 108-136), with explicit
fuel: pick the minimum-rank in-table adjacent pair, break if none, merge it,
stop when the word has length 1, else recompute pairs and repeat.  Each
iteration strictly shortens the word, so fuel `word.length` is enough
(`bpeLoop_isSome` below); `none` means fuel ran out. -/
def bpeLoop (ranks : List ((Sym × Sym) × Nat)) : Nat → List Sym → Option (List Sym)
  | 0, _ => none
  | fuel + 1, word =>
    match minRankPair ranks (getPairs word) with
    | none => some word
    | some ((a, b), _) =>
      let newWord := mergeWord a b word
      if newWord.length = 1 then some newWord
      else bpeLoop ranks fuel newWord

/-- Python `" ".join(word)`: the word's symbols joined by single spaces. -/
def joinSpace : List (List Char) → List Char
  | [] => []
  | [w] => w
  | w :: ws => w ++ spaceChar :: joinSpace ws

/-- `self.bpe(token)` (source lines 95-139), explicit in the rank table and
the cache (the instance state it reads and writes): returns the
space-joined merged word together with the updated cache.  `none` models the
`IndexError` that `get_pairs` raises on an empty token (never reached from
`encode`).  The `if not pairs: return token` early exit does not touch the
cache, matching the source. -/
def bpe (ranks : List ((Sym × Sym) × Nat)) (cache : Cache) (token : Token) :
    Option (List Char × Cache) :=
  match alookup cache token with
  | some v => some (v, cache)
  | none =>
    match token with
    | [] => none
    | _ :: _ =>
      let word : List Sym := token.map (fun c => [c])
      if getPairs word = [] then some (token, cache)
      else
        match bpeLoop ranks token.length word with
        | none => none
        | some w =>
          let joined := joinSpace w
          some (joined, dictInsert cache token joined)

/-- Python `s.split(" ")`: split on every single space, keeping empty
pieces. -/
def splitOnSpace : List Char → List (List Char)
  | [] => [[]]
  | c :: rest =>
    if c = spaceChar then [] :: splitOnSpace rest
    else
      match splitOnSpace rest with
      | [] => [[c]]
      | piece :: pieces => (c :: piece) :: pieces

/-! ## The encode facade (source lines 141-195) -/

/-- Python `token.encode("utf-8")` for a one-character string: the standard
UTF-8 encoding of the code point.  Lean `Char` excludes the surrogates
U+D800..U+DFFF, exactly the code points a Python str may hold but whose
encoding raises `UnicodeEncodeError`, so this scalar-level function is
total and collapses that error path; `utf8BytesOfCodepoint` below restores
it on the raw code-point domain. -/
def utf8BytesOfChar (c : Char) : List Nat :=
  let n := c.toNat
  if n < 0x80 then [n]
  else if n < 0x800 then
    [0xC0 + n / 64, 0x80 + n % 64]
  else if n < 0x10000 then
    [0xE0 + n / 4096, 0x80 + (n / 64) % 64, 0x80 + n % 64]
  else
    [0xF0 + n / 262144, 0x80 + (n / 4096) % 64, 0x80 + (n / 64) % 64, 0x80 + n % 64]

/-- The byte-symbol token built for an unknown character (source line 178):
`"".join(self.byte_encoder[b] for b in token.encode("utf-8"))`.  `none`
models the `KeyError` on a byte outside the byte-encoder (never happens:
all UTF-8 bytes are below 256, see `byteEncoder_total`). -/
def byteSymToken (c : Char) : Option Token :=
  (utf8BytesOfChar c).mapM byteEncoder

/-- The `for length in range(min(20, len(remaining_text)), 0, -1)` search
(source lines 164-169): the largest `len` between `min 20 |rem|` and 1 whose
prefix `rem.take len` is an encoder key, tried in decreasing order. -/
def findPrefixLen (rem : List Char) : Option Nat :=
  ((List.range (min 20 rem.length)).map (fun i => min 20 rem.length - i)).find?
    (fun len => (encLookup (rem.take len)).isSome)

/-- The `while remaining_text:` loop of `encode` (source lines 152-180),
accumulating the `bpe_tokens` list and threading the merge cache.  Branches
in source order: the space-prefixed look-ahead (take 20, lines 155-161), the
decreasing-length vocabulary prefix search (lines 164-169), and the
single-character fallback (lines 172-180) which either emits the character
itself when it is an encoder key or byte-maps it and runs `bpe`.  Fuel
decreases by one per emitted group; every branch consumes at least one
character, so fuel `rem.length` suffices (`encodeLoop_isSome` below). -/
def encodeLoop (cache : Cache) : Nat → List Char → Option (List Token × Cache)
  | 0, _ => none
  | fuel + 1, rem =>
    match rem with
    | [] => some ([], cache)
    | c :: rest =>
      if c = spaceChar ∧ (encLookup (rem.take 20)).isSome then
        let sp := rem.take 20
        match encodeLoop cache fuel (rem.drop sp.length) with
        | some (toks, c') => some (sp :: toks, c')
        | none => none
      else
        match findPrefixLen rem with
        | some len =>
          match encodeLoop cache fuel (rem.drop len) with
          | some (toks, c') => some (rem.take len :: toks, c')
          | none => none
        | none =>
          if (encLookup [c]).isSome then
            match encodeLoop cache fuel rest with
            | some (toks, c') => some ([c] :: toks, c')
            | none => none
          else
            match byteSymToken c with
            | none => none
            | some token =>
              match bpe bpeRanks cache token with
              | none => none
              | some (res, cache') =>
                match encodeLoop cache' fuel rest with
                | some (toks, c'') => some (splitOnSpace res ++ toks, c'')
                | none => none

/-- The final id mapping of `encode` (source line 182):
`[self.encoder.get(token, 0) for token in bpe_tokens]`. -/
def idOf (tok : Token) : Nat := (encLookup tok).getD 0

/-- `GPT3Tokenizer.encode(text)` (source lines 141-184), explicit in the
merge-cache state: returns the id sequence (or `none` for the internal
errors modelled above, which `encodeLoop_isSome` rules out) together with
the updated cache.  `if not text: return []` is the empty-input guard. -/
def encode (cache : Cache) (text : List Char) : Option (List Nat) × Cache :=
  if text = [] then (some [], cache)
  else
    match encodeLoop cache (text.length + 1) text with
    | some (toks, cache') => (some (toks.map idOf), cache')
    | none => (none, cache)

/-- `GPT3Tokenizer.count_tokens(text)` (source lines 186-195):
`len(self.encode(text))`, threading the same cache. -/
def countTokens (cache : Cache) (text : List Char) : Option Nat × Cache :=
  let r := encode cache text
  (r.1.map List.length, r.2)

/-- Modelled from the spec: the repository has no `decode` method (only the
`self.decoder` dict, line 72).  Spec section 4.5: "`decode(ids) -> text`
concatenates the reverse-lookup of every id in order, substituting a
placeholder string for unknown ids".  The spec leaves the placeholder string
unspecified; we use the replacement character U+FFFD (its choice never
matters below: every claim about `decode` only involves known ids). -/
def decode (ids : List Nat) : List Char :=
  (ids.map (fun id => (decLookup id).getD [Char.ofNat 0xFFFD])).flatten

/-! ## The spec's segmenter pipeline (for claim C8)

The source compiles the segmentation regex (`self.pat`, line 90) but `encode`
never applies it.  To compare `encode` with the behaviour the spec describes,
the pipeline of spec sections 4.2 and 4.5 is modelled here from the spec's
words and is deliberately NOT a translation of `encode`. -/

/-- Whitespace test for the segmenter model. -/
def isWs (c : Char) : Bool := c.isWhitespace

/-- Letter test.  Modelled from the spec: the spec asks for general unicode
letter categories; ASCII classification is used here, which agrees with the
unicode categories on every ASCII input (all inputs the claims evaluate). -/
def isLetterC (c : Char) : Bool := c.isAlpha

/-- Digit test (ASCII, see `isLetterC`). -/
def isDigitC (c : Char) : Bool := c.isDigit

/-- Class (d) of the segmenter grammar: neither whitespace nor letter nor
digit. -/
def isOtherC (c : Char) : Bool := !(isWs c) && !(isLetterC c) && !(isDigitC c)

/-- The contraction suffix alternatives of the segmenter grammar, in pattern
order. -/
def contractions : List (List Char) :=
  [chars "\x27s", chars "\x27t", chars "\x27re", chars "\x27ve",
   chars "\x27m", chars "\x27ll", chars "\x27d"]

/-- Modelled from the spec (section 4.2): the chunk the segmenter grammar
matches at the start of a non-empty `rem`, trying the alternatives in
leftmost-precedence order: (a) contraction suffixes, (b) optional space then
letters, (c) optional space then digits, (d) optional space then
non-space/letter/digit symbols, (e) a whitespace run not followed by a
non-whitespace character (with the regex backtracking one character when the
run is followed by non-whitespace), (f) a whitespace run. -/
def specSegmentStep (rem : List Char) : List Char :=
  match contractions.find? (fun ct => List.isPrefixOf ct rem) with
  | some ct => ct
  | none =>
    match rem with
    | [] => []
    | c :: rest =>
      if c = spaceChar ∧ (rest.takeWhile isLetterC) ≠ [] then
        c :: rest.takeWhile isLetterC
      else if isLetterC c then rem.takeWhile isLetterC
      else if c = spaceChar ∧ (rest.takeWhile isDigitC) ≠ [] then
        c :: rest.takeWhile isDigitC
      else if isDigitC c then rem.takeWhile isDigitC
      else if c = spaceChar ∧ (rest.takeWhile isOtherC) ≠ [] then
        c :: rest.takeWhile isOtherC
      else if isOtherC c then rem.takeWhile isOtherC
      else
        let run := rem.takeWhile isWs
        if run.length = rem.length then run
        else if 2 ≤ run.length then run.dropLast
        else run

/-- Modelled from the spec (section 4.2): the ordered chunk sequence of the
segmenter, consuming one chunk per step (fuel `rem.length` always
suffices because every chunk is non-empty). -/
def specSegment : Nat → List Char → List (List Char)
  | 0, _ => []
  | _ + 1, [] => []
  | fuel + 1, rem =>
    let ch := specSegmentStep rem
    if ch = [] then [] else ch :: specSegment fuel (rem.drop ch.length)

/-- Modelled from the spec (section 4.5): the per-chunk pipeline the claim C8
attributes to `encode` — for each segmenter chunk, emit its id directly if
the whole chunk is in the vocabulary, otherwise byte-map the chunk, run the
merge engine, and look up each sub-symbol with fallback id 0. -/
def specSegmenterEncode (t : List Char) : List Nat :=
  ((specSegment t.length t).map (fun chunk =>
    match encLookup chunk with
    | some id => [id]
    | none =>
      let token : Token :=
        ((chunk.map utf8BytesOfChar).flatten).map (fun b => (byteEncoder b).getD spaceChar)
      match bpe bpeRanks [] token with
      | some (res, _) => (splitOnSpace res).map idOf
      | none => [])).flatten

/-! ## The greedy description of encode (for claim C8, amended)

`encode` is, observably, a plain greedy longest-vocabulary-prefix loop: the
space-prefixed look-ahead branch of the source is redundant (whenever it
fires, the decreasing-length search would find the very same prefix).
`greedyLoop` states that cleaned-up control flow; `encodeLoop_eq_greedyLoop`
proves `encode`'s loop equal to it. -/

/-- The greedy description of `encode`'s loop: emit the longest vocabulary
prefix of at most 20 characters; when no prefix is in the vocabulary,
process exactly the first character (its id when in the vocabulary,
otherwise byte-map it and run the merge engine). -/
def greedyLoop (cache : Cache) : Nat → List Char → Option (List Token × Cache)
  | 0, _ => none
  | fuel + 1, rem =>
    match rem with
    | [] => some ([], cache)
    | c :: rest =>
      match findPrefixLen rem with
      | some len =>
        match greedyLoop cache fuel (rem.drop len) with
        | some (toks, c') => some (rem.take len :: toks, c')
        | none => none
      | none =>
        if (encLookup [c]).isSome then
          match greedyLoop cache fuel rest with
          | some (toks, c') => some ([c] :: toks, c')
          | none => none
        else
          match byteSymToken c with
          | none => none
          | some token =>
            match bpe bpeRanks cache token with
            | none => none
            | some (res, cache') =>
              match greedyLoop cache' fuel rest with
              | some (toks, c'') => some (splitOnSpace res ++ toks, c'')
              | none => none

/-! ## The code-point-level model (Python str with lone surrogates)

A Python `str` is a sequence of arbitrary code points in [0, 0x110000),
including lone surrogates U+D800..U+DFFF, which Lean's `Char` (Unicode
scalar values) cannot represent.  The pipeline is therefore transcribed a
second time over raw code points (`List Nat`), with `utf8BytesOfCodepoint`
partial exactly where Python's `str.encode("utf-8")` raises
`UnicodeEncodeError` — the runtime error path of `encode` that decides
claim C6.  The two transcriptions agree on surrogate-free text; the
dictionaries are the same hardcoded data with string keys viewed as
code-point sequences (Python compares strings as code-point sequences). -/

/-- The space code point (`" "` at the code-point level). -/
def spaceCp : Nat := 32

/-- A symbol / token string at the code-point level. -/
abbrev CpTok := List Nat

/-- The merge cache `self.cache` at the code-point level. -/
abbrev CacheCp := List (CpTok × List Nat)

/-- `self.encoder` (source lines 43-70) with its keys viewed as code-point
sequences: the same dict as `encoderList`. -/
def encoderListCp : List (CpTok × Nat) :=
  encoderList.map (fun e => (e.1.map Char.toNat, e.2))

/-- Lookup in `self.encoder` at the code-point level. -/
def encLookupCp (t : CpTok) : Option Nat := alookup encoderListCp t

/-- `self.bpe_ranks` (source lines 75-83) at the code-point level. -/
def bpeRanksCp : List ((CpTok × CpTok) × Nat) :=
  bpeRanks.map (fun e => ((e.1.1.map Char.toNat, e.1.2.map Char.toNat), e.2))

/-- Rank lookup at the code-point level. -/
def rankOfCp (ranks : List ((CpTok × CpTok) × Nat)) (p : CpTok × CpTok) : Option Nat :=
  alookup ranks p

/-- `get_pairs` (source lines 23-33) at the code-point level. -/
def getPairsCp : List CpTok → List (CpTok × CpTok)
  | x :: y :: rest => (x, y) :: getPairsCp (y :: rest)
  | _ => []

/-- The minimum-rank in-table pair (see `minRankPair`) at the code-point
level. -/
def minRankPairCp (ranks : List ((CpTok × CpTok) × Nat)) :
    List (CpTok × CpTok) → Option ((CpTok × CpTok) × Nat)
  | [] => none
  | p :: ps =>
    match rankOfCp ranks p with
    | none => minRankPairCp ranks ps
    | some r =>
      match minRankPairCp ranks ps with
      | none => some (p, r)
      | some (q, rq) => if r ≤ rq then some (p, r) else some (q, rq)

/-- The inner merge loop of `bpe` (source lines 113-131) at the code-point
level. -/
def mergeWordCp (a b : CpTok) : List CpTok → List CpTok
  | [] => []
  | [x] => [x]
  | x :: y :: rest =>
    if x = a ∧ y = b then (a ++ b) :: mergeWordCp a b rest
    else x :: mergeWordCp a b (y :: rest)

/-- The outer `while True` loop of `bpe` (source lines 108-136) at the
code-point level, with the same fuel discipline as `bpeLoop`. -/
def bpeLoopCp (ranks : List ((CpTok × CpTok) × Nat)) : Nat → List CpTok → Option (List CpTok)
  | 0, _ => none
  | fuel + 1, word =>
    match minRankPairCp ranks (getPairsCp word) with
    | none => some word
    | some ((a, b), _) =>
      let newWord := mergeWordCp a b word
      if newWord.length = 1 then some newWord
      else bpeLoopCp ranks fuel newWord

/-- `" ".join(word)` at the code-point level. -/
def joinSpaceCp : List (List Nat) → List Nat
  | [] => []
  | [w] => w
  | w :: ws => w ++ spaceCp :: joinSpaceCp ws

/-- `self.bpe(token)` (source lines 95-139) at the code-point level. -/
def bpeCp (ranks : List ((CpTok × CpTok) × Nat)) (cache : CacheCp) (token : CpTok) :
    Option (List Nat × CacheCp) :=
  match alookup cache token with
  | some v => some (v, cache)
  | none =>
    match token with
    | [] => none
    | _ :: _ =>
      let word : List CpTok := token.map (fun n => [n])
      if getPairsCp word = [] then some (token, cache)
      else
        match bpeLoopCp ranks token.length word with
        | none => none
        | some w =>
          let joined := joinSpaceCp w
          some (joined, dictInsert cache token joined)

/-- Python `s.split(" ")` at the code-point level. -/
def splitOnSpaceCp : List Nat → List (List Nat)
  | [] => [[]]
  | n :: rest =>
    if n = spaceCp then [] :: splitOnSpaceCp rest
    else
      match splitOnSpaceCp rest with
      | [] => [[n]]
      | piece :: pieces => (n :: piece) :: pieces

/-- Python `token.encode("utf-8")` for a one-code-point string, on the raw
code-point domain of a Python str: CPython's UTF-8 codec raises
`UnicodeEncodeError` on the lone surrogates U+D800..U+DFFF, modelled as
`none`; every other code point gets its standard UTF-8 bytes (code points
above 0x10FFFF cannot occur in a Python str). -/
def utf8BytesOfCodepoint (n : Nat) : Option (List Nat) :=
  if 55296 ≤ n ∧ n ≤ 57343 then none
  else if n < 0x80 then some [n]
  else if n < 0x800 then
    some [0xC0 + n / 64, 0x80 + n % 64]
  else if n < 0x10000 then
    some [0xE0 + n / 4096, 0x80 + (n / 64) % 64, 0x80 + n % 64]
  else
    some [0xF0 + n / 262144, 0x80 + (n / 4096) % 64, 0x80 + (n / 64) % 64, 0x80 + n % 64]

/-- `self.byte_encoder[b]` at the code-point level. -/
def byteEncoderCp (b : Nat) : Option Nat := (byteEncoder b).map Char.toNat

/-- The byte-symbol token built for an unknown code point (source line 178):
`"".join(self.byte_encoder[b] for b in token.encode("utf-8"))`.  This is the
step where a lone surrogate raises: `utf8BytesOfCodepoint` returns `none`
and the error propagates out of `encode` as a `TokenizationError`. -/
def byteSymTokenCp (n : Nat) : Option CpTok :=
  (utf8BytesOfCodepoint n).bind (fun bs => bs.mapM byteEncoderCp)

/-- The decreasing-length prefix search (source lines 164-169) at the
code-point level. -/
def findPrefixLenCp (rem : List Nat) : Option Nat :=
  ((List.range (min 20 rem.length)).map (fun i => min 20 rem.length - i)).find?
    (fun len => (encLookupCp (rem.take len)).isSome)

/-- The `while remaining_text:` loop of `encode` (source lines 152-180) at
the code-point level; `none` is the raised `TokenizationError`. -/
def encodeLoopCp (cache : CacheCp) : Nat → List Nat → Option (List CpTok × CacheCp)
  | 0, _ => none
  | fuel + 1, rem =>
    match rem with
    | [] => some ([], cache)
    | n :: rest =>
      if n = spaceCp ∧ (encLookupCp (rem.take 20)).isSome then
        let sp := rem.take 20
        match encodeLoopCp cache fuel (rem.drop sp.length) with
        | some (toks, c') => some (sp :: toks, c')
        | none => none
      else
        match findPrefixLenCp rem with
        | some len =>
          match encodeLoopCp cache fuel (rem.drop len) with
          | some (toks, c') => some (rem.take len :: toks, c')
          | none => none
        | none =>
          if (encLookupCp [n]).isSome then
            match encodeLoopCp cache fuel rest with
            | some (toks, c') => some ([n] :: toks, c')
            | none => none
          else
            match byteSymTokenCp n with
            | none => none
            | some token =>
              match bpeCp bpeRanksCp cache token with
              | none => none
              | some (res, cache') =>
                match encodeLoopCp cache' fuel rest with
                | some (toks, c'') => some (splitOnSpaceCp res ++ toks, c'')
                | none => none

/-- `self.encoder.get(token, 0)` at the code-point level. -/
def idOfCp (tok : CpTok) : Nat := (encLookupCp tok).getD 0

/-- `GPT3Tokenizer.encode(text)` (source lines 141-184) at the code-point
level: `none` in the first component is the `TokenizationError` the method
raises when a lone surrogate reaches `token.encode("utf-8")`. -/
def encodeCp (cache : CacheCp) (text : List Nat) : Option (List Nat) × CacheCp :=
  if text = [] then (some [], cache)
  else
    match encodeLoopCp cache (text.length + 1) text with
    | some (toks, cache') => (some (toks.map idOfCp), cache')
    | none => (none, cache)

/-- `GPT3Tokenizer.count_tokens(text)` (source lines 186-195) at the
code-point level; it re-raises the `TokenizationError` of `encode`. -/
def countTokensCp (cache : CacheCp) (text : List Nat) : Option Nat × CacheCp :=
  let r := encodeCp cache text
  (r.1.map List.length, r.2)

/-! ## Proof-support definitions -/

/-- The invariant of the `bytes_to_unicode` loop state `(bs, cs, n)`:
`bs` and `cs` grow in lockstep (each new byte adds symbol code `256 + n`),
`bs` holds distinct byte values, `cs` holds distinct codes below `256 + n`,
and each `(byte, code)` pair is either diagonal (printable bytes map to
themselves) or has code at least 256. -/
def btuInv (st : List Nat × List Nat × Nat) : Prop :=
  st.1.length = st.2.1.length ∧
  st.1.length = 188 + st.2.2 ∧
  (∀ y ∈ st.2.1, y < 256 + st.2.2) ∧
  st.2.1.Nodup ∧
  (∀ p ∈ st.1.zip st.2.1, p.2 = p.1 ∨ 256 ≤ p.2) ∧
  (∀ x ∈ st.1, x < 256) ∧
  st.1.Nodup

/-- The result the BPE merge loop computes for a token from a fresh cache:
what a cached entry for that token ought to hold. -/
def bpeResult (token : Token) : Option (List Char) :=
  (bpe bpeRanks [] token).map Prod.fst

/-- A merge cache is good when every stored entry equals the value the BPE
merge loop would recompute for its token.  The empty cache is good, and the
encode path only ever writes good entries (`encodeLoop_goodCache`). -/
def GoodCache (cache : Cache) : Prop :=
  ∀ e ∈ cache, bpeResult e.1 = some e.2

/-! ## Helper lemmas -/

theorem alookup_mem {α β : Type} [DecidableEq α] :
    ∀ (l : List (α × β)) (k : α) (v : β), alookup l k = some v → (k, v) ∈ l
  | [], _, _, h => by simp [alookup] at h
  | (k', v') :: rest, k, v, h => by
    simp only [alookup] at h
    by_cases hk : k' = k
    · rw [if_pos hk] at h
      cases h
      subst hk
      exact List.mem_cons_self _ _
    · rw [if_neg hk] at h
      exact List.mem_cons_of_mem _ (alookup_mem rest k v h)

theorem mergeWord_ne_nil (a b : Sym) : ∀ w : List Sym, w ≠ [] → mergeWord a b w ≠ []
  | [], h => absurd rfl h
  | [x], _ => by simp [mergeWord]
  | x :: y :: rest, _ => by
    simp only [mergeWord]
    split <;> simp

theorem mergeWord_length_le (a b : Sym) :
    ∀ w : List Sym, (mergeWord a b w).length ≤ w.length
  | [] => le_refl _
  | [x] => le_refl _
  | x :: y :: rest => by
    simp only [mergeWord]
    by_cases h : x = a ∧ y = b
    · rw [if_pos h]
      have := mergeWord_length_le a b rest
      simp only [List.length_cons]
      omega
    · rw [if_neg h]
      have := mergeWord_length_le a b (y :: rest)
      simp only [List.length_cons] at this ⊢
      omega

theorem mergeWord_length_lt (a b : Sym) :
    ∀ w : List Sym, (a, b) ∈ getPairs w → (mergeWord a b w).length < w.length
  | [], h => by simp [getPairs] at h
  | [x], h => by simp [getPairs] at h
  | x :: y :: rest, h => by
    simp only [getPairs, List.mem_cons] at h
    simp only [mergeWord]
    by_cases hxy : x = a ∧ y = b
    · rw [if_pos hxy]
      have := mergeWord_length_le a b rest
      simp only [List.length_cons]
      omega
    · rw [if_neg hxy]
      have hmem : (a, b) ∈ getPairs (y :: rest) := by
        rcases h with h | h
        · exfalso
          apply hxy
          injection h with h1 h2
          exact ⟨h1.symm, h2.symm⟩
        · exact h
      have := mergeWord_length_lt a b (y :: rest) hmem
      simp only [List.length_cons] at this ⊢
      omega

theorem minRankPair_mem (ranks : List ((Sym × Sym) × Nat)) :
    ∀ (ps : List (Sym × Sym)) (p : Sym × Sym) (r : Nat),
      minRankPair ranks ps = some (p, r) → p ∈ ps ∧ rankOf ranks p = some r
  | [], _, _, h => by simp [minRankPair] at h
  | q :: ps, p, r, h => by
    simp only [minRankPair] at h
    rcases hq : rankOf ranks q with _ | rq
    · rw [hq] at h
      have := minRankPair_mem ranks ps p r h
      exact ⟨List.mem_cons_of_mem _ this.1, this.2⟩
    · rw [hq] at h
      rcases hrec : minRankPair ranks ps with _ | ⟨q', rq'⟩
      · rw [hrec] at h
        cases h
        exact ⟨List.mem_cons_self _ _, hq⟩
      · rw [hrec] at h
        dsimp only at h
        by_cases hle : rq ≤ rq'
        · rw [if_pos hle] at h
          cases h
          exact ⟨List.mem_cons_self _ _, hq⟩
        · rw [if_neg hle] at h
          injection h with h'
          injection h' with hp hr
          rw [hp, hr] at hrec
          have := minRankPair_mem ranks ps p r hrec
          exact ⟨List.mem_cons_of_mem _ this.1, this.2⟩

theorem bpeLoop_isSome (ranks : List ((Sym × Sym) × Nat)) :
    ∀ (fuel : Nat) (w : List Sym), w ≠ [] → w.length ≤ fuel →
      (bpeLoop ranks fuel w).isSome
  | 0, w, hne, hlen => by
    cases w with
    | nil => exact absurd rfl hne
    | cons x xs => simp at hlen
  | fuel + 1, w, hne, hlen => by
    simp only [bpeLoop]
    rcases hmin : minRankPair ranks (getPairs w) with _ | ⟨⟨a, b⟩, r⟩
    · simp
    · simp only []
      by_cases hone : (mergeWord a b w).length = 1
      · rw [if_pos hone]
        simp
      · rw [if_neg hone]
        have hmem := (minRankPair_mem ranks (getPairs w) (a, b) r hmin).1
        have hlt := mergeWord_length_lt a b w hmem
        have hne' := mergeWord_ne_nil a b w hne
        exact bpeLoop_isSome ranks fuel (mergeWord a b w) hne' (by omega)

theorem bpe_isSome (ranks : List ((Sym × Sym) × Nat)) (cache : Cache) (token : Token)
    (hne : token ≠ []) : (bpe ranks cache token).isSome := by
  simp only [bpe]
  rcases hc : alookup cache token with _ | v
  · cases token with
    | nil => exact absurd rfl hne
    | cons c cs =>
      simp only []
      by_cases hp : getPairs ((c :: cs).map (fun ch => [ch])) = []
      · rw [if_pos hp]
        simp
      · rw [if_neg hp]
        have hsome := bpeLoop_isSome ranks (c :: cs).length ((c :: cs).map (fun ch => [ch]))
          (by simp) (by simp)
        rcases hl : bpeLoop ranks (c :: cs).length ((c :: cs).map (fun ch => [ch])) with _ | w
        · rw [hl] at hsome
          simp at hsome
        · simp
  · simp

theorem char_toNat_lt (c : Char) : c.toNat < 1114112 := by
  rcases c.valid with h | ⟨_, h2⟩
  · exact Nat.lt_trans h (by norm_num)
  · exact h2

theorem utf8BytesOfChar_ne_nil (c : Char) : utf8BytesOfChar c ≠ [] := by
  simp only [utf8BytesOfChar]
  split_ifs <;> simp

theorem utf8BytesOfChar_lt_256 (c : Char) : ∀ b ∈ utf8BytesOfChar c, b < 256 := by
  have hn : c.toNat < 1114112 := char_toNat_lt c
  intro b hb
  simp only [utf8BytesOfChar] at hb
  split_ifs at hb <;> simp at hb <;> omega

theorem utf8BytesOfChar_single (c : Char) (h : c.toNat < 128) :
    utf8BytesOfChar c = [c.toNat] := by
  simp [utf8BytesOfChar, h]

theorem utf8BytesOfChar_ge_128 (c : Char) (h : 128 ≤ c.toNat) :
    ∀ b ∈ utf8BytesOfChar c, 128 ≤ b := by
  intro b hb
  simp only [utf8BytesOfChar] at hb
  split_ifs at hb <;> simp at hb <;> omega

/-- Lookup of a key just written by `dictInsert` returns its value. -/
theorem alookup_dictInsert_self {α β : Type} [DecidableEq α] :
    ∀ (d : List (α × β)) (k : α) (v : β), alookup (dictInsert d k v) k = some v
  | [], k, v => by simp [dictInsert, alookup]
  | (k', v') :: rest, k, v => by
    simp only [dictInsert]
    by_cases hk : k' = k
    · rw [if_pos hk]
      simp [alookup, hk]
    · rw [if_neg hk]
      simp only [alookup, if_neg hk]
      exact alookup_dictInsert_self rest k v

/-- `dictInsert` does not disturb lookups of other keys. -/
theorem alookup_dictInsert_ne {α β : Type} [DecidableEq α] :
    ∀ (d : List (α × β)) (k k' : α) (v : β), k ≠ k' →
      alookup (dictInsert d k v) k' = alookup d k'
  | [], k, k', v, hne => by simp [dictInsert, alookup, hne]
  | (k0, v0) :: rest, k, k', v, hne => by
    simp only [dictInsert]
    by_cases hk : k0 = k
    · rw [if_pos hk]
      subst hk
      simp [alookup, hne]
    · rw [if_neg hk]
      simp only [alookup]
      by_cases hk' : k0 = k'
      · simp [if_pos hk']
      · simp only [if_neg hk']
        exact alookup_dictInsert_ne rest k k' v hne

/-- Every entry of `dictInsert d k v` is either the inserted pair or an entry
of `d`. -/
theorem mem_dictInsert_elim {α β : Type} [DecidableEq α] :
    ∀ (d : List (α × β)) (k : α) (v : β) (p : α × β),
      p ∈ dictInsert d k v → p = (k, v) ∨ p ∈ d
  | [], k, v, p, h => by
    simp [dictInsert] at h
    exact Or.inl h
  | (k0, v0) :: rest, k, v, p, h => by
    simp only [dictInsert] at h
    by_cases hk : k0 = k
    · rw [if_pos hk] at h
      subst hk
      rcases List.mem_cons.mp h with h' | h'
      · exact Or.inl h'
      · exact Or.inr (List.mem_cons_of_mem _ h')
    · rw [if_neg hk] at h
      rcases List.mem_cons.mp h with h' | h'
      · rw [h']
        exact Or.inr (List.mem_cons_self _ _)
      · rcases mem_dictInsert_elim rest k v p h' with h'' | h''
        · exact Or.inl h''
        · exact Or.inr (List.mem_cons_of_mem _ h'')

/-- Entries produced by `dictInvert` all come from the input list, swapped. -/
theorem mem_dictInvert {α β : Type} [DecidableEq β] {l : List (α × β)} {p : β × α}
    (h : p ∈ dictInvert l) : (p.2, p.1) ∈ l := by
  suffices hgen : ∀ (l : List (α × β)) (acc : List (β × α)) (p : β × α),
      p ∈ l.foldl (fun d e => dictInsert d e.2 e.1) acc →
      (p.2, p.1) ∈ l ∨ p ∈ acc by
    rcases hgen l [] p h with h' | h'
    · exact h'
    · simp at h'
  intro l
  induction l with
  | nil =>
    intro acc p h
    exact Or.inr h
  | cons e rest ih =>
    intro acc p h
    simp only [List.foldl_cons] at h
    rcases ih (dictInsert acc e.2 e.1) p h with h' | h'
    · exact Or.inl (List.mem_cons_of_mem _ h')
    · have hmem := mem_dictInsert_elim acc e.2 e.1 p h'
      rcases hmem with h'' | h''
      · left
        rw [h'']
        simp
      · exact Or.inr h''

/-- Fold-left over `dictInsert` with keys absent from the tail does not
disturb a lookup. -/
theorem alookup_foldl_dictInsert_notmem {α β : Type} [DecidableEq β] :
    ∀ (l : List (α × β)) (acc : List (β × α)) (v : β), v ∉ l.map Prod.snd →
      alookup (l.foldl (fun d e => dictInsert d e.2 e.1) acc) v = alookup acc v
  | [], acc, v, _ => rfl
  | e :: rest, acc, v, hnm => by
    simp only [List.map_cons, List.mem_cons] at hnm
    push_neg at hnm
    simp only [List.foldl_cons]
    rw [alookup_foldl_dictInsert_notmem rest (dictInsert acc e.2 e.1) v hnm.2]
    exact alookup_dictInsert_ne acc e.2 v e.1 (fun h => hnm.1 h.symm)

/-- When the values of `l` are pairwise distinct, `dictInvert l` maps each
value back to its key. -/
theorem alookup_dictInvert {α β : Type} [DecidableEq β] (l : List (α × β))
    (hnd : (l.map Prod.snd).Nodup) :
    ∀ p ∈ l, alookup (dictInvert l) p.2 = some p.1 := by
  suffices hgen : ∀ (l : List (α × β)) (acc : List (β × α)),
      (l.map Prod.snd).Nodup →
      ∀ p ∈ l, alookup (l.foldl (fun d e => dictInsert d e.2 e.1) acc) p.2 = some p.1 by
    exact hgen l [] hnd
  intro l
  induction l with
  | nil =>
    intro acc _ p hp
    simp at hp
  | cons e rest ih =>
    intro acc hnd p hp
    simp only [List.map_cons, List.nodup_cons] at hnd
    simp only [List.foldl_cons]
    rcases List.mem_cons.mp hp with h | h
    · subst h
      rw [alookup_foldl_dictInsert_notmem rest (dictInsert acc p.2 p.1) p.2 hnd.1]
      exact alookup_dictInsert_self acc p.2 p.1
    · exact ih (dictInsert acc e.2 e.1) hnd.2 p h

/-- When the keys of `l` are pairwise distinct, membership determines the
lookup. -/
theorem alookup_of_mem_nodup {α β : Type} [DecidableEq α] :
    ∀ (l : List (α × β)), (l.map Prod.fst).Nodup → ∀ p ∈ l, alookup l p.1 = some p.2
  | [], _, p, hp => by simp at hp
  | e :: rest, hnd, p, hp => by
    simp only [List.map_cons, List.nodup_cons] at hnd
    rcases List.mem_cons.mp hp with h | h
    · subst h
      simp [alookup]
    · simp only [alookup]
      by_cases hk : e.1 = p.1
      · exfalso
        apply hnd.1
        rw [hk]
        exact List.mem_map_of_mem Prod.fst h
      · rw [if_neg hk]
        exact alookup_of_mem_nodup rest hnd.2 p h

/-! ### Structural facts about the `bytes_to_unicode` construction

The loop of `bytes_to_unicode` is analysed through an invariant of its fold
state `(bs, cs, n)` rather than by brute-force evaluation. -/

/-- `(Char.ofNat y).toNat = y` below the surrogate range. -/
theorem char_toNat_ofNat {y : Nat} (h : y < 55296) : (Char.ofNat y).toNat = y := by
  have hv : y.isValidChar := Or.inl h
  rw [Char.ofNat, dif_pos hv]
  rfl

/-- Pairs of a list zipped with itself are diagonal. -/
theorem zip_self_snd_eq {α : Type} : ∀ (l : List α), ∀ p ∈ l.zip l, p.2 = p.1
  | [], p, hp => by simp at hp
  | x :: rest, p, hp => by
    rcases List.mem_cons.mp hp with h | h
    · rw [h]
    · exact zip_self_snd_eq rest p h

theorem btuBs0_lt_256 : ∀ x ∈ btuBs0, x < 256 := by
  intro x hx
  simp only [btuBs0, List.mem_append, List.mem_range'_1] at hx
  omega

theorem btuBs0_nodup : btuBs0.Nodup := by
  have h1 := List.nodup_range' 33 94
  have h2 := List.nodup_range' 161 12
  have h3 := List.nodup_range' 174 82
  refine List.Nodup.append (List.Nodup.append h1 h2 ?_) h3 ?_
  · intro x hx1 hx2
    rw [List.mem_range'_1] at hx1 hx2
    omega
  · intro x hx1 hx2
    rw [List.mem_append, List.mem_range'_1, List.mem_range'_1] at hx1
    rw [List.mem_range'_1] at hx2
    omega

theorem btuBs0_length : btuBs0.length = 188 := by
  simp [btuBs0]

theorem btuInv_init : btuInv (btuBs0, btuBs0, 0) := by
  refine ⟨rfl, by simpa using btuBs0_length, ?_, btuBs0_nodup, ?_, btuBs0_lt_256, btuBs0_nodup⟩
  · intro y hy
    have := btuBs0_lt_256 y hy
    omega
  · intro p hp
    exact Or.inl (zip_self_snd_eq btuBs0 p hp)

theorem btuInv_step {st : List Nat × List Nat × Nat} {b : Nat}
    (h : btuInv st) (hb : b < 256) : btuInv (btuStep st b) := by
  obtain ⟨h1, h2, h3, h4, h5, h6, h7⟩ := h
  simp only [btuStep]
  by_cases hmem : b ∈ st.1
  · rw [if_pos hmem]
    exact ⟨h1, h2, h3, h4, h5, h6, h7⟩
  · rw [if_neg hmem]
    simp only [btuInv]
    refine ⟨?_, ?_, ?_, ?_, ?_, ?_, ?_⟩
    · simp [h1]
    · simp only [List.length_append, List.length_singleton, h2]
      omega
    · intro y hy
      rcases List.mem_append.mp hy with hy' | hy'
      · have := h3 y hy'
        omega
      · simp at hy'
        omega
    · refine List.Nodup.append h4 (List.nodup_singleton _) ?_
      intro y hy1 hy2
      simp at hy2
      have := h3 y hy1
      omega
    · intro p hp
      rw [List.zip_append h1] at hp
      rcases List.mem_append.mp hp with hp' | hp'
      · rcases h5 p hp' with h' | h'
        · exact Or.inl h'
        · exact Or.inr h'
      · simp only [List.zip_cons_cons, List.zip_nil_right, List.mem_singleton] at hp'
        subst hp'
        right
        simp
    · intro x hx
      rcases List.mem_append.mp hx with hx' | hx'
      · exact h6 x hx'
      · simp at hx'
        omega
    · refine List.Nodup.append h7 (List.nodup_singleton _) ?_
      intro y hy1 hy2
      simp at hy2
      subst hy2
      exact hmem hy1

theorem btuInv_foldl :
    ∀ (L : List Nat) (st : List Nat × List Nat × Nat),
      (∀ b ∈ L, b < 256) → btuInv st → btuInv (L.foldl btuStep st)
  | [], _, _, h => h
  | b :: L, st, hL, h => by
    simp only [List.foldl_cons]
    exact btuInv_foldl L (btuStep st b)
      (fun x hx => hL x (List.mem_cons_of_mem _ hx))
      (btuInv_step h (hL b (List.mem_cons_self _ _)))

theorem btuStep_mem_mono {st : List Nat × List Nat × Nat} {b x : Nat}
    (hx : x ∈ st.1) : x ∈ (btuStep st b).1 := by
  simp only [btuStep]
  split
  · exact hx
  · exact List.mem_append.mpr (Or.inl hx)

theorem btuStep_mem_self {st : List Nat × List Nat × Nat} {b : Nat} :
    b ∈ (btuStep st b).1 := by
  simp only [btuStep]
  split
  · assumption
  · simp

theorem btu_foldl_mem_mono :
    ∀ (L : List Nat) (st : List Nat × List Nat × Nat) (x : Nat),
      x ∈ st.1 → x ∈ (L.foldl btuStep st).1
  | [], _, _, hx => hx
  | b :: L, st, x, hx => by
    simp only [List.foldl_cons]
    exact btu_foldl_mem_mono L (btuStep st b) x (btuStep_mem_mono hx)

theorem btu_foldl_mem :
    ∀ (L : List Nat) (st : List Nat × List Nat × Nat) (b : Nat),
      b ∈ L → b ∈ (L.foldl btuStep st).1
  | b' :: L, st, b, hb => by
    simp only [List.foldl_cons]
    rcases List.mem_cons.mp hb with h | h
    · subst h
      exact btu_foldl_mem_mono L (btuStep st b) b btuStep_mem_self
    · exact btu_foldl_mem L (btuStep st b') b h

theorem btu_foldl_length_le :
    ∀ (L : List Nat) (st : List Nat × List Nat × Nat),
      (L.foldl btuStep st).1.length ≤ st.1.length + L.length
  | [], st => by simp
  | b :: L, st => by
    simp only [List.foldl_cons, List.length_cons]
    have hrec := btu_foldl_length_le L (btuStep st b)
    have hstep : (btuStep st b).1.length ≤ st.1.length + 1 := by
      simp only [btuStep]
      split
      · omega
      · simp
    omega

theorem btuSt_inv : btuInv btuSt :=
  btuInv_foldl (List.range 256) (btuBs0, btuBs0, 0)
    (fun b hb => List.mem_range.mp hb) btuInv_init

theorem btuSt_length_le : btuSt.1.length ≤ 444 := by
  have := btu_foldl_length_le (List.range 256) (btuBs0, btuBs0, 0)
  simp only [List.length_range] at this
  calc btuSt.1.length ≤ (btuBs0, btuBs0, 0).1.length + 256 := this
    _ ≤ 444 := by rw [btuBs0_length]

theorem btuSt_mem {b : Nat} (h : b < 256) : b ∈ btuSt.1 :=
  btu_foldl_mem (List.range 256) (btuBs0, btuBs0, 0) b (List.mem_range.mpr h)

/-- Lookup in a zip succeeds on any member of the key list of matching
length. -/
theorem alookup_zip_isSome {α β : Type} [DecidableEq α] :
    ∀ (ks : List α) (vs : List β), ks.length = vs.length →
      ∀ k ∈ ks, (alookup (ks.zip vs) k).isSome
  | [], _, _, k, hk => by simp at hk
  | k' :: ks, [], hlen, k, hk => by simp at hlen
  | k' :: ks, v' :: vs, hlen, k, hk => by
    simp only [List.zip_cons_cons, alookup]
    by_cases he : k' = k
    · rw [if_pos he]
      simp
    · rw [if_neg he]
      rcases List.mem_cons.mp hk with h | h
      · exact absurd h.symm he
      · exact alookup_zip_isSome ks vs (by simpa using hlen) k h

theorem byteEncoder_isSome {b : Nat} (h : b < 256) : (byteEncoder b).isSome := by
  have hinv := btuSt_inv
  exact alookup_zip_isSome btuSt.1 (btuSt.2.1.map Char.ofNat)
    (by simpa using hinv.1) b (btuSt_mem h)

/-- Zipping against a mapped list is mapping over the zip. -/
theorem zip_map_right_eq {α β γ : Type} (f : β → γ) :
    ∀ (l1 : List α) (l2 : List β),
      l1.zip (l2.map f) = (l1.zip l2).map (fun p => (p.1, f p.2))
  | [], _ => by simp
  | _ :: _, [] => by simp
  | x :: l1, y :: l2 => by
    simp only [List.map_cons, List.zip_cons_cons]
    rw [zip_map_right_eq f l1 l2]

/-- The second components of a length-matched zip. -/
theorem map_snd_zip_eq {α β : Type} :
    ∀ (l1 : List α) (l2 : List β), l1.length = l2.length →
      (l1.zip l2).map Prod.snd = l2
  | [], [], _ => rfl
  | [], _ :: _, h => by simp at h
  | _ :: _, [], h => by simp at h
  | x :: l1, y :: l2, h => by
    simp only [List.zip_cons_cons, List.map_cons]
    rw [map_snd_zip_eq l1 l2 (by simpa using h)]

/-- The symbol codes stored in `cs` after the loop are below 512. -/
theorem btuSt_cs_lt {y : Nat} (hy : y ∈ btuSt.2.1) : y < 512 := by
  obtain ⟨h1, h2, h3, _, _, _, _⟩ := btuSt_inv
  have hb := btuSt_length_le
  have := h3 y hy
  omega

/-- Every entry of the byte table is either diagonal (printable bytes map to
themselves) or carries a symbol code of at least 256. -/
theorem bytesToUnicode_entry {e : Nat × Char} (h : e ∈ bytesToUnicode) :
    e.2.toNat = e.1 ∨ (256 ≤ e.2.toNat ∧ e.2.toNat < 512) := by
  obtain ⟨h1, h2, h3, h4, h5, h6, h7⟩ := btuSt_inv
  have hb := btuSt_length_le
  rw [bytesToUnicode, zip_map_right_eq] at h
  rcases List.mem_map.mp h with ⟨p, hp, he⟩
  have hcs : p.2 ∈ btuSt.2.1 := by
    rcases p with ⟨p1, p2⟩
    exact (List.mem_zip hp).2
  have hy : p.2 < 512 := btuSt_cs_lt hcs
  have htn : (Char.ofNat p.2).toNat = p.2 := char_toNat_ofNat (by omega)
  rcases h5 p hp with hd | hge
  · left
    rw [← he]
    simpa [htn] using hd
  · right
    rw [← he]
    simp [htn]
    omega

/-- Every byte outside the printable ASCII range 32..126 is mapped by the
byte encoder to a symbol whose code point is also outside 32..126 (so in
particular to a character the vocabulary does not contain). -/
theorem bytesToUnicode_sym_range :
    ∀ e ∈ bytesToUnicode, ¬(32 ≤ e.1 ∧ e.1 ≤ 126) → ¬(32 ≤ e.2.toNat ∧ e.2.toNat ≤ 126) := by
  intro e he hrange
  rcases bytesToUnicode_entry he with h | h
  · omega
  · omega

/-- The symbols of the byte table are pairwise distinct. -/
theorem bytesToUnicode_symsNodup : (bytesToUnicode.map Prod.snd).Nodup := by
  obtain ⟨h1, h2, h3, h4, h5, h6, h7⟩ := btuSt_inv
  have hsnd : bytesToUnicode.map Prod.snd = btuSt.2.1.map Char.ofNat := by
    rw [bytesToUnicode, zip_map_right_eq]
    rw [List.map_map]
    have : (btuSt.1.zip btuSt.2.1).map (Prod.snd ∘ fun p => (p.1, Char.ofNat p.2)) =
        (btuSt.1.zip btuSt.2.1).map (Char.ofNat ∘ Prod.snd) := by
      rfl
    rw [this, ← List.map_map]
    rw [map_snd_zip_eq btuSt.1 btuSt.2.1 h1]
  rw [hsnd]
  refine List.Nodup.map_on ?_ h4
  intro x hx y hy heq
  have hx' := btuSt_cs_lt hx
  have hy' := btuSt_cs_lt hy
  have : (Char.ofNat x).toNat = (Char.ofNat y).toNat := by rw [heq]
  rwa [char_toNat_ofNat (by omega), char_toNat_ofNat (by omega)] at this

/-- The `bs` list covers each of the 256 byte values exactly once. -/
theorem btuSt_bs_length : btuSt.1.length = 256 := by
  obtain ⟨h1, h2, h3, h4, h5, h6, h7⟩ := btuSt_inv
  have hset : btuSt.1.toFinset = Finset.range 256 := by
    apply Finset.ext
    intro b
    simp only [List.mem_toFinset, Finset.mem_range]
    exact ⟨fun hb => h6 b hb, fun hb => btuSt_mem hb⟩
  have := List.toFinset_card_of_nodup h7
  rw [hset] at this
  simp at this
  omega

/-- The byte table has exactly 256 entries. -/
theorem bytesToUnicode_length : bytesToUnicode.length = 256 := by
  obtain ⟨h1, _, _, _, _, _, _⟩ := btuSt_inv
  rw [bytesToUnicode, List.length_zip]
  simp only [List.length_map]
  rw [← h1, btuSt_bs_length]
  simp

/-- Byte-encode then byte-decode is the identity on every byte value. -/
theorem byteDecoder_byteEncoder {b : Nat} {ch : Char} (h : byteEncoder b = some ch) :
    byteDecoder ch = some b := by
  have hmem := alookup_mem _ _ _ h
  exact alookup_dictInvert bytesToUnicode bytesToUnicode_symsNodup (b, ch) hmem

/-! ### Concrete evaluations

All concrete runs of the vocabulary construction and the encode pipeline are
collected in one statement so that the evaluation work is shared. -/

/-- The concrete facts about the hardcoded vocabulary, rank table, and
encode runs used by the claims. -/
theorem vocabFacts :
    (encLookup (chars "World") = some 2159 ∧
     encLookup (chars " World") = some 2159 ∧
     decLookup 2159 = some (chars " World") ∧
     (2159, chars " World") ∈ decoderList ∧
     (encoderList.map Prod.fst).Nodup) ∧
    ((∀ e ∈ encoderList, e.1.length = 1 →
        32 ≤ (e.1.headD spaceChar).toNat ∧ (e.1.headD spaceChar).toNat ≤ 126) ∧
     (∀ n ∈ List.range' 32 95, (encLookup [Char.ofNat n]).isSome) ∧
     (∀ p ∈ bpeRanks, ¬(p.1.1.length = 1 ∧ p.1.2.length = 1)) ∧
     (∀ p ∈ bpeRanks, p.1.1 ≠ [Char.ofNat 233] ∧ p.1.2 ≠ [Char.ofNat 233])) ∧
    ((encode [] (chars "<|endoftext|>")).1 = some [50256] ∧
     encLookup [Char.ofNat 233] = none ∧
     (encode [] [Char.ofNat 233]).1 = some [0, 0] ∧
     (encode [] (chars "World")).1 = some [2159] ∧
     decode [2159] = chars " World" ∧
     (encode [] (chars "Helloworld")).1 = some [15496, 995] ∧
     specSegmenterEncode (chars "Helloworld") = [54, 25, 32, 32, 35, 43, 35, 38, 32, 24]) ∧
    (encodeLoop [] 6 (chars "Hello") = some ([chars "Hello"], []) ∧
     encLookup (chars "Hello") = some 15496 ∧
     decLookup 15496 = some (chars "Hello") ∧
     decode [15496] = chars "Hello") :=
  ⟨by decide, by decide, by decide, by decide⟩

/-- Single-character vocabulary keys all lie in printable ASCII 32..126. -/
theorem encoder_single_key_ascii :
    ∀ e ∈ encoderList, e.1.length = 1 →
      32 ≤ (e.1.headD spaceChar).toNat ∧ (e.1.headD spaceChar).toNat ≤ 126 :=
  vocabFacts.2.1.1

/-- Every printable ASCII character (code 32..126) is a vocabulary key. -/
theorem encoder_ascii_isSome :
    ∀ n ∈ List.range' 32 95, (encLookup [Char.ofNat n]).isSome :=
  vocabFacts.2.1.2.1

/-- No pair of the hardcoded rank table has two single-character sides. -/
theorem bpeRanks_no_single_pair :
    ∀ p ∈ bpeRanks, ¬(p.1.1.length = 1 ∧ p.1.2.length = 1) :=
  vocabFacts.2.1.2.2.1

/-- The decoder holds, for each id, the last-inserted encoder key with that
id, and each decoder entry encodes back to its id (the decoder is a section
of the encoder, though not its inverse). -/
theorem decoder_section : ∀ p ∈ decoderList, encLookup p.2 = some p.1 := by
  intro p hp
  exact alookup_of_mem_nodup encoderList vocabFacts.1.2.2.2.2 (p.2, p.1) (mem_dictInvert hp)


/-- `mapM byteEncoder` on a list of genuine bytes succeeds and equals the
plain map through the (total there) byte encoder. -/
theorem mapM_byteEncoder_eq :
    ∀ l : List Nat, (∀ b ∈ l, b < 256) →
      l.mapM byteEncoder = some (l.map (fun b => (byteEncoder b).getD spaceChar))
  | [], _ => rfl
  | b :: bs, h => by
    have hb := byteEncoder_isSome (h b (List.mem_cons_self _ _))
    have hrec := mapM_byteEncoder_eq bs (fun x hx => h x (List.mem_cons_of_mem _ hx))
    rw [List.mapM_cons]
    rcases hx : byteEncoder b with _ | ch
    · rw [hx] at hb
      simp at hb
    · rw [hrec]
      simp [hx]

theorem byteSymToken_eq (c : Char) :
    byteSymToken c =
      some ((utf8BytesOfChar c).map (fun b => (byteEncoder b).getD spaceChar)) :=
  mapM_byteEncoder_eq _ (utf8BytesOfChar_lt_256 c)

theorem findPrefixLen_bounds {rem : List Char} {len : Nat}
    (h : findPrefixLen rem = some len) : 1 ≤ len ∧ len ≤ rem.length := by
  have hmem := List.mem_of_find?_eq_some h
  simp only [List.mem_map, List.mem_range] at hmem
  obtain ⟨i, hi, rfl⟩ := hmem
  omega

theorem findPrefixLen_isSome {rem : List Char} {len : Nat}
    (h : findPrefixLen rem = some len) : (encLookup (rem.take len)).isSome := by
  have := List.find?_some h
  simpa using this

theorem encodeLoop_isSome :
    ∀ (fuel : Nat) (cache : Cache) (rem : List Char), rem.length < fuel →
      (encodeLoop cache fuel rem).isSome
  | fuel + 1, cache, rem, hlt => by
    cases rem with
    | nil => simp [encodeLoop]
    | cons c rest =>
      have hlen : (c :: rest).length = rest.length + 1 := by simp
      simp only [encodeLoop]
      by_cases hsp : c = spaceChar ∧ (encLookup ((c :: rest).take 20)).isSome = true
      · rw [if_pos hsp]
        have hrec := encodeLoop_isSome fuel cache ((c :: rest).drop ((c :: rest).take 20).length)
          (by
            simp only [List.length_drop, List.length_take, hlen] at *
            omega)
        rcases hl : encodeLoop cache fuel ((c :: rest).drop ((c :: rest).take 20).length)
          with _ | ⟨toks, c'⟩
        · rw [hl] at hrec
          simp at hrec
        · simp [hl]
      · rw [if_neg hsp]
        rcases hfp : findPrefixLen (c :: rest) with _ | len
        · by_cases hec : (encLookup [c]).isSome = true
          · rw [if_pos hec]
            have hrec := encodeLoop_isSome fuel cache rest (by omega)
            rcases hl : encodeLoop cache fuel rest with _ | ⟨toks, c'⟩
            · rw [hl] at hrec
              simp at hrec
            · simp [hl]
          · rw [if_neg hec]
            rw [byteSymToken_eq c]
            have htok : ((utf8BytesOfChar c).map (fun b => (byteEncoder b).getD spaceChar)) ≠ [] := by
              simp [utf8BytesOfChar_ne_nil c]
            have hbpe := bpe_isSome bpeRanks cache _ htok
            rcases hb : bpe bpeRanks cache
                ((utf8BytesOfChar c).map (fun b => (byteEncoder b).getD spaceChar))
              with _ | ⟨res, cache'⟩
            · rw [hb] at hbpe
              simp at hbpe
            · have hrec := encodeLoop_isSome fuel cache' rest (by omega)
              rcases hl : encodeLoop cache' fuel rest with _ | ⟨toks, c''⟩
              · rw [hl] at hrec
                simp at hrec
              · simp [hb, hl]
        · obtain ⟨h1, h2⟩ := findPrefixLen_bounds hfp
          have hrec := encodeLoop_isSome fuel cache ((c :: rest).drop len)
            (by
              simp only [List.length_drop, hlen] at *
              omega)
          rcases hl : encodeLoop cache fuel ((c :: rest).drop len) with _ | ⟨toks, c'⟩
          · rw [hl] at hrec
            simp at hrec
          · simp [hl]

/-! ## Cache correctness -/

theorem goodCache_nil : GoodCache [] := by
  intro e he
  simp at he

/-- Under a good cache, `bpe` succeeds on a non-empty token, returns exactly
the value the merge loop computes from a fresh cache, and leaves the cache
good. -/
theorem bpe_goodCache {cache : Cache} (hg : GoodCache cache) :
    ∀ (token : Token), token ≠ [] →
      ∃ res cache₂, bpe bpeRanks cache token = some (res, cache₂) ∧
        bpeResult token = some res ∧ GoodCache cache₂ := by
  intro token hne
  rcases hc : alookup cache token with _ | v
  · cases token with
    | nil => exact absurd rfl hne
    | cons c cs =>
      have hnil : alookup ([] : Cache) (c :: cs) = none := rfl
      by_cases hp : getPairs ((c :: cs).map (fun ch => [ch])) = []
      · refine ⟨c :: cs, cache, ?_, ?_, hg⟩
        · simp only [bpe, hc, hp]
          rfl
        · simp only [bpeResult, bpe, hnil, hp]
          rfl
      · have hsome := bpeLoop_isSome bpeRanks (c :: cs).length
          ((c :: cs).map (fun ch => [ch])) (by simp) (by simp)
        rcases hl : bpeLoop bpeRanks (c :: cs).length ((c :: cs).map (fun ch => [ch]))
          with _ | w
        · rw [hl] at hsome
          simp at hsome
        · refine ⟨joinSpace w,
            dictInsert cache (c :: cs) (joinSpace w), ?_, ?_, ?_⟩
          · simp only [bpe, hc, hl]
            rw [if_neg hp]
          · simp only [bpeResult, bpe, hnil, hl]
            rw [if_neg hp]
            rfl
          · intro e he
            rcases mem_dictInsert_elim cache (c :: cs) (joinSpace w) e he
              with h' | h'
            · subst h'
              simp only [bpeResult, bpe, hnil, hl]
              rw [if_neg hp]
              rfl
            · exact hg e h'
  · refine ⟨v, cache, ?_, ?_, hg⟩
    · simp only [bpe, hc]
    · exact hg (token, v) (alookup_mem cache token v hc)

/-- The encode loop only ever writes good entries into the cache. -/
theorem encodeLoop_goodCache :
    ∀ (fuel : Nat) (cache : Cache) (rem : List Char) (toks : List Token) (cache' : Cache),
      GoodCache cache → encodeLoop cache fuel rem = some (toks, cache') → GoodCache cache'
  | 0, cache, rem, toks, cache', _, h => by
    simp only [encodeLoop] at h
    exact Option.noConfusion h
  | fuel + 1, cache, rem, toks, cache', hg, h => by
    cases rem with
    | nil =>
      simp only [encodeLoop] at h
      injection h with h'
      injection h' with h1 h2
      rw [← h2]
      exact hg
    | cons c rest =>
      simp only [encodeLoop] at h
      by_cases hsp : c = spaceChar ∧ (encLookup ((c :: rest).take 20)).isSome = true
      · rw [if_pos hsp] at h
        rcases hl : encodeLoop cache fuel ((c :: rest).drop ((c :: rest).take 20).length)
          with _ | ⟨toks0, c0⟩ <;> simp only [hl] at h
        · exact Option.noConfusion h
        · injection h with h'
          injection h' with h1 h2
          rw [← h2]
          exact encodeLoop_goodCache fuel cache _ toks0 c0 hg hl
      · rw [if_neg hsp] at h
        rcases hfp : findPrefixLen (c :: rest) with _ | len <;> simp only [hfp] at h
        · by_cases hec : (encLookup [c]).isSome = true
          · rw [if_pos hec] at h
            rcases hl : encodeLoop cache fuel rest with _ | ⟨toks0, c0⟩ <;>
              simp only [hl] at h
            · exact Option.noConfusion h
            · injection h with h'
              injection h' with h1 h2
              rw [← h2]
              exact encodeLoop_goodCache fuel cache rest toks0 c0 hg hl
          · rw [if_neg hec] at h
            rcases hbs : byteSymToken c with _ | token <;> simp only [hbs] at h
            · exact Option.noConfusion h
            · have htne : token ≠ [] := by
                have hbt := byteSymToken_eq c
                rw [hbs] at hbt
                injection hbt with hbt'
                rw [hbt']
                simp [utf8BytesOfChar_ne_nil c]
              obtain ⟨res, cache₂, hbpe, _, hg₂⟩ := bpe_goodCache hg token htne
              simp only [hbpe] at h
              rcases hl : encodeLoop cache₂ fuel rest with _ | ⟨toks0, c0⟩ <;>
                simp only [hl] at h
              · exact Option.noConfusion h
              · injection h with h'
                injection h' with h1 h2
                rw [← h2]
                exact encodeLoop_goodCache fuel cache₂ rest toks0 c0 hg₂ hl
        · rcases hl : encodeLoop cache fuel ((c :: rest).drop len) with _ | ⟨toks0, c0⟩ <;>
            simp only [hl] at h
          · exact Option.noConfusion h
          · injection h with h'
            injection h' with h1 h2
            rw [← h2]
            exact encodeLoop_goodCache fuel cache _ toks0 c0 hg hl

/-- Cons-style continuations preserve equality of the token components. -/
theorem map_fst_match_eq (f : List Token → List Token) :
    ∀ (o1 o2 : Option (List Token × Cache)),
      o1.map Prod.fst = o2.map Prod.fst →
      (match o1 with
       | some (toks, c') => some (f toks, c')
       | none => none).map Prod.fst =
      (match o2 with
       | some (toks, c') => some (f toks, c')
       | none => none).map Prod.fst
  | none, none, _ => rfl
  | some (t1, d1), some (t2, d2), h => by
    simp at h
    simp [h]
  | none, some _, h => by simp at h
  | some _, none, h => by simp at h

/-- Between any two good caches, the encode loop produces the same token
list (the cache is unobservable in the output). -/
theorem encodeLoop_tokens_eq :
    ∀ (fuel : Nat) (c1 c2 : Cache) (rem : List Char), GoodCache c1 → GoodCache c2 →
      (encodeLoop c1 fuel rem).map Prod.fst = (encodeLoop c2 fuel rem).map Prod.fst
  | 0, _, _, _, _, _ => rfl
  | fuel + 1, c1, c2, rem, hg1, hg2 => by
    cases rem with
    | nil => rfl
    | cons c rest =>
      simp only [encodeLoop]
      by_cases hsp : c = spaceChar ∧ (encLookup ((c :: rest).take 20)).isSome = true
      · rw [if_pos hsp, if_pos hsp]
        exact map_fst_match_eq (fun toks => (c :: rest).take 20 :: toks) _ _
          (encodeLoop_tokens_eq fuel c1 c2 ((c :: rest).drop ((c :: rest).take 20).length)
            hg1 hg2)
      · rw [if_neg hsp, if_neg hsp]
        rcases hfp : findPrefixLen (c :: rest) with _ | len
        · by_cases hec : (encLookup [c]).isSome = true
          · rw [if_pos hec, if_pos hec]
            exact map_fst_match_eq (fun toks => [c] :: toks) _ _
              (encodeLoop_tokens_eq fuel c1 c2 rest hg1 hg2)
          · rw [if_neg hec, if_neg hec]
            rcases hbs : byteSymToken c with _ | token
            · rfl
            · have htne : token ≠ [] := by
                have hbt := byteSymToken_eq c
                rw [hbs] at hbt
                injection hbt with hbt'
                rw [hbt']
                simp [utf8BytesOfChar_ne_nil c]
              obtain ⟨res1, e1, hbpe1, hres1, hge1⟩ := bpe_goodCache hg1 token htne
              obtain ⟨res2, e2, hbpe2, hres2, hge2⟩ := bpe_goodCache hg2 token htne
              have hres : res1 = res2 := by
                rw [hres1] at hres2
                exact Option.some.inj hres2
              subst hres
              simp only [hbpe1, hbpe2]
              exact map_fst_match_eq (fun toks => splitOnSpace res1 ++ toks) _ _
                (encodeLoop_tokens_eq fuel e1 e2 rest hge1 hge2)
        · exact map_fst_match_eq (fun toks => (c :: rest).take len :: toks) _ _
            (encodeLoop_tokens_eq fuel c1 c2 ((c :: rest).drop len) hg1 hg2)

/-! ## The byte-mapped fallback path -/

/-- A character whose one-character string is not a vocabulary key has a
code point outside printable ASCII 32..126 (every printable ASCII character
is a key). -/
theorem notin_encoder_code {c : Char} (h : encLookup [c] = none) :
    ¬(32 ≤ c.toNat ∧ c.toNat ≤ 126) := by
  rintro ⟨h1, h2⟩
  have hmem : c.toNat ∈ List.range' 32 95 := by
    rw [List.mem_range'_1]
    omega
  have hs := encoder_ascii_isSome c.toNat hmem
  rw [Char.ofNat_toNat, h] at hs
  simp at hs

/-- A single character that is a vocabulary key has a printable ASCII code
point. -/
theorem encLookup_single_some_ascii {ch : Char} (h : (encLookup [ch]).isSome) :
    32 ≤ ch.toNat ∧ ch.toNat ≤ 126 := by
  rcases he : encLookup [ch] with _ | id
  · rw [he] at h
    simp at h
  · have hmem := alookup_mem _ _ _ he
    have := encoder_single_key_ascii ([ch], id) hmem (by simp)
    simpa using this

/-- All UTF-8 bytes of a character outside the vocabulary lie outside
printable ASCII. -/
theorem bytes_not_ascii {c : Char} (h : encLookup [c] = none) :
    ∀ b ∈ utf8BytesOfChar c, b < 256 ∧ ¬(32 ≤ b ∧ b ≤ 126) := by
  intro b hb
  refine ⟨utf8BytesOfChar_lt_256 c b hb, ?_⟩
  have hcode := notin_encoder_code h
  by_cases hn : c.toNat < 128
  · rw [utf8BytesOfChar_single c hn] at hb
    simp at hb
    rw [hb]
    exact hcode
  · have := utf8BytesOfChar_ge_128 c (by omega) b hb
    omega

/-- The byte symbol of a non-printable byte is not a space and not a
vocabulary key. -/
theorem byteSym_not_in_encoder {b : Nat} (hb : b < 256) (hnot : ¬(32 ≤ b ∧ b ≤ 126)) :
    ∃ ch, byteEncoder b = some ch ∧ ch ≠ spaceChar ∧ encLookup [ch] = none := by
  have hs := byteEncoder_isSome hb
  rcases he : byteEncoder b with _ | ch
  · rw [he] at hs
    simp at hs
  · have hrange : ¬(32 ≤ ch.toNat ∧ ch.toNat ≤ 126) :=
      bytesToUnicode_sym_range (b, ch) (alookup_mem _ _ _ he) hnot
    refine ⟨ch, rfl, ?_, ?_⟩
    · intro hsp
      apply hrange
      rw [hsp]
      exact ⟨by decide, by decide⟩
    · rcases hl : encLookup [ch] with _ | id
      · rfl
      · exact absurd (encLookup_single_some_ascii (by rw [hl]; simp)) hrange

/-- Both components of an adjacent pair are symbols of the word. -/
theorem getPairs_mem : ∀ (w : List Sym) (p : Sym × Sym), p ∈ getPairs w → p.1 ∈ w ∧ p.2 ∈ w
  | x :: y :: rest, p, hp => by
    simp only [getPairs, List.mem_cons] at hp
    rcases hp with h | h
    · rw [h]
      exact ⟨List.mem_cons_self _ _, List.mem_cons_of_mem _ (List.mem_cons_self _ _)⟩
    · have := getPairs_mem (y :: rest) p h
      exact ⟨List.mem_cons_of_mem _ this.1, List.mem_cons_of_mem _ this.2⟩
  | [], p, hp => by simp [getPairs] at hp
  | [x], p, hp => by simp [getPairs] at hp

/-- A pair of two single-character symbols is never in the hardcoded rank
table. -/
theorem rankOf_single_none {p : Sym × Sym} (h1 : p.1.length = 1) (h2 : p.2.length = 1) :
    rankOf bpeRanks p = none := by
  rcases hr : rankOf bpeRanks p with _ | r
  · rfl
  · exact absurd ⟨h1, h2⟩ (bpeRanks_no_single_pair (p, r) (alookup_mem _ _ _ hr))

/-- A pair list with no ranked member yields no minimum. -/
theorem minRankPair_none (ranks : List ((Sym × Sym) × Nat)) :
    ∀ (ps : List (Sym × Sym)), (∀ p ∈ ps, rankOf ranks p = none) →
      minRankPair ranks ps = none
  | [], _ => rfl
  | p :: ps, h => by
    simp only [minRankPair, h p (List.mem_cons_self _ _)]
    exact minRankPair_none ranks ps (fun q hq => h q (List.mem_cons_of_mem _ hq))

theorem splitOnSpace_no_space :
    ∀ (w : List Char), spaceChar ∉ w → splitOnSpace w = [w]
  | [], _ => rfl
  | c :: rest, h => by
    simp only [List.mem_cons] at h
    push_neg at h
    simp only [splitOnSpace]
    rw [if_neg (fun hc => h.1 hc.symm)]
    rw [splitOnSpace_no_space rest h.2]

theorem splitOnSpace_append_space :
    ∀ (w : List Char), spaceChar ∉ w → ∀ (rest : List Char),
      splitOnSpace (w ++ spaceChar :: rest) = w :: splitOnSpace rest
  | [], _, rest => by
    simp only [List.nil_append, splitOnSpace]
    simp
  | c :: w', h, rest => by
    simp only [List.mem_cons] at h
    push_neg at h
    simp only [List.cons_append, splitOnSpace]
    rw [if_neg (fun hc => h.1 hc.symm)]
    simp only [List.append_eq]
    rw [splitOnSpace_append_space w' h.2 rest]

/-- Splitting the space-joined word recovers the word, provided no symbol is
empty or contains a space. -/
theorem splitOnSpace_joinSpace :
    ∀ (ws : List (List Char)), ws ≠ [] → (∀ w ∈ ws, w ≠ [] ∧ spaceChar ∉ w) →
      splitOnSpace (joinSpace ws) = ws
  | [w], _, h => by
    simp only [joinSpace]
    exact splitOnSpace_no_space w (h w (List.mem_cons_self _ _)).2
  | w :: w' :: ws, _, h => by
    have hw := h w (List.mem_cons_self _ _)
    rw [show joinSpace (w :: w' :: ws) = w ++ spaceChar :: joinSpace (w' :: ws) from rfl]
    rw [splitOnSpace_append_space w hw.2]
    rw [splitOnSpace_joinSpace (w' :: ws) (by simp)
      (fun x hx => h x (List.mem_cons_of_mem _ hx))]

/-- For a non-empty token none of whose adjacent singleton pairs is ranked,
the merge loop does nothing: the cached/returned value splits back into the
token's single-character symbols. -/
theorem bpeResult_singletons (token : Token) (hne : token ≠ [])
    (hsp : ∀ ch ∈ token, ch ≠ spaceChar)
    (hno : ∀ p ∈ getPairs (token.map (fun ch => [ch])), rankOf bpeRanks p = none) :
    ∃ res, bpeResult token = some res ∧
      splitOnSpace res = token.map (fun ch => [ch]) := by
  cases token with
  | nil => exact absurd rfl hne
  | cons c cs =>
    cases cs with
    | nil =>
      refine ⟨[c], rfl, ?_⟩
      have := splitOnSpace_no_space [c] (by
        intro hmem
        simp at hmem
        exact hsp c (List.mem_cons_self _ _) hmem.symm)
      rw [this]
      rfl
    | cons c' cs' =>
      have hpairs : getPairs ((c :: c' :: cs').map (fun ch => [ch])) ≠ [] := by
        simp [getPairs]
      have hmin := minRankPair_none bpeRanks _ hno
      have hloop : bpeLoop bpeRanks (c :: c' :: cs').length
          ((c :: c' :: cs').map (fun ch => [ch])) =
          some ((c :: c' :: cs').map (fun ch => [ch])) := by
        rw [show (c :: c' :: cs').length = cs'.length + 1 + 1 from rfl]
        simp only [bpeLoop, hmin]
      refine ⟨joinSpace ((c :: c' :: cs').map (fun ch => [ch])), ?_, ?_⟩
      · simp only [bpeResult, bpe]
        rw [show alookup ([] : Cache) (c :: c' :: cs') = none from rfl]
        dsimp only
        rw [if_neg hpairs, hloop]
        rfl
      · refine splitOnSpace_joinSpace _ (by simp) ?_
        intro w hw
        rcases List.mem_map.mp hw with ⟨ch, hch, rfl⟩
        refine ⟨by simp, ?_⟩
        intro hmem
        simp at hmem
        exact hsp ch hch hmem.symm

/-- The full byte-mapped fallback analysis for a character outside the
vocabulary: the byte-symbol token exists, is as long as the UTF-8 encoding,
and consists of non-space symbols that are not vocabulary keys, with no
ranked adjacent pair. -/
theorem bytePath (c : Char) (h : encLookup [c] = none) :
    ∃ token, byteSymToken c = some token ∧
      token.length = (utf8BytesOfChar c).length ∧ token ≠ [] ∧
      (∀ ch ∈ token, ch ≠ spaceChar ∧ encLookup [ch] = none) ∧
      (∀ p ∈ getPairs (token.map (fun ch => [ch])), rankOf bpeRanks p = none) := by
  refine ⟨(utf8BytesOfChar c).map (fun b => (byteEncoder b).getD spaceChar),
    byteSymToken_eq c, by simp, by simp [utf8BytesOfChar_ne_nil c], ?_, ?_⟩
  · intro ch hch
    rcases List.mem_map.mp hch with ⟨b, hb, rfl⟩
    obtain ⟨hblt, hbna⟩ := bytes_not_ascii h b hb
    obtain ⟨ch', he, hns, hnl⟩ := byteSym_not_in_encoder hblt hbna
    rw [he]
    exact ⟨hns, hnl⟩
  · intro p hp
    obtain ⟨hp1, hp2⟩ := getPairs_mem _ p hp
    rcases List.mem_map.mp hp1 with ⟨ch1, _, he1⟩
    rcases List.mem_map.mp hp2 with ⟨ch2, _, he2⟩
    refine rankOf_single_none ?_ ?_
    · rw [← he1]
      rfl
    · rw [← he2]
      rfl

/-- Map by a function that fixes every element is the identity. -/
theorem map_id_of_eq {α : Type} (f : α → α) :
    ∀ (l : List α), (∀ x ∈ l, f x = x) → l.map f = l
  | [], _ => rfl
  | x :: l, h => by
    simp only [List.map_cons]
    rw [h x (List.mem_cons_self _ _), map_id_of_eq f l (fun y hy => h y (List.mem_cons_of_mem _ hy))]

theorem take_min (n : Nat) (l : List Char) : l.take (min n l.length) = l.take n := by
  by_cases h : n ≤ l.length
  · rw [Nat.min_eq_left h]
  · push_neg at h
    rw [Nat.min_eq_right (by omega), List.take_length, List.take_of_length_le (by omega)]

theorem take_append_drop_len (n : Nat) (l : List Char) :
    l.take n ++ l.drop (l.take n).length = l := by
  rw [List.length_take, ← take_min n l, List.take_append_drop]

/-- The tokens a successful encode-loop run produces concatenate back to the
input text, provided every token is a vocabulary key (the byte-mapped
fallback branch never produces vocabulary keys, so under that hypothesis
every step was a literal-prefix step). -/
theorem encodeLoop_concat :
    ∀ (fuel : Nat) (cache : Cache) (rem : List Char) (toks : List Token) (cache' : Cache),
      GoodCache cache → encodeLoop cache fuel rem = some (toks, cache') →
      (∀ tok ∈ toks, (encLookup tok).isSome) → toks.flatten = rem
  | 0, _, _, _, _, _, h, _ => by
    simp only [encodeLoop] at h
    exact Option.noConfusion h
  | fuel + 1, cache, rem, toks, cache', hg, h, hv => by
    cases rem with
    | nil =>
      simp only [encodeLoop] at h
      injection h with h'
      injection h' with h1 h2
      rw [← h1]
      rfl
    | cons c rest =>
      simp only [encodeLoop] at h
      by_cases hsp : c = spaceChar ∧ (encLookup ((c :: rest).take 20)).isSome = true
      · rw [if_pos hsp] at h
        rcases hl : encodeLoop cache fuel ((c :: rest).drop ((c :: rest).take 20).length)
          with _ | ⟨toks0, c0⟩ <;> simp only [hl] at h
        · exact Option.noConfusion h
        · injection h with h'
          injection h' with h1 h2
          have hrec := encodeLoop_concat fuel cache _ toks0 c0 hg hl
            (fun tok htok => hv tok (by rw [← h1]; exact List.mem_cons_of_mem _ htok))
          rw [← h1]
          simp only [List.flatten_cons]
          rw [hrec]
          exact take_append_drop_len 20 (c :: rest)
      · rw [if_neg hsp] at h
        rcases hfp : findPrefixLen (c :: rest) with _ | len <;> simp only [hfp] at h
        · by_cases hec : (encLookup [c]).isSome = true
          · rw [if_pos hec] at h
            rcases hl : encodeLoop cache fuel rest with _ | ⟨toks0, c0⟩ <;>
              simp only [hl] at h
            · exact Option.noConfusion h
            · injection h with h'
              injection h' with h1 h2
              have hrec := encodeLoop_concat fuel cache rest toks0 c0 hg hl
                (fun tok htok => hv tok (by rw [← h1]; exact List.mem_cons_of_mem _ htok))
              rw [← h1]
              simp only [List.flatten_cons]
              rw [hrec]
              rfl
          · rw [if_neg hec] at h
            rcases hbs : byteSymToken c with _ | token <;> simp only [hbs] at h
            · exact Option.noConfusion h
            · have hcn : encLookup [c] = none := by
                rcases he : encLookup [c] with _ | id
                · rfl
                · exfalso
                  apply hec
                  rw [he]
                  simp
              obtain ⟨token', hbs', hlen', hne', hprops', hranks'⟩ := bytePath c hcn
              rw [hbs] at hbs'
              injection hbs' with htok
              subst htok
              obtain ⟨res, cache₂, hbpe, hres, hg₂⟩ := bpe_goodCache hg token hne'
              obtain ⟨res2, hres2, hsplit⟩ := bpeResult_singletons token hne'
                (fun ch hch => (hprops' ch hch).1) hranks'
              rw [hres] at hres2
              injection hres2 with heq
              subst heq
              simp only [hbpe] at h
              rcases hl : encodeLoop cache₂ fuel rest with _ | ⟨toks0, c0⟩ <;>
                simp only [hl] at h
              · exact Option.noConfusion h
              · injection h with h'
                injection h' with h1 h2
                exfalso
                cases token with
                | nil => exact hne' rfl
                | cons ch0 chs =>
                  have hhead : [ch0] ∈ toks := by
                    rw [← h1, hsplit]
                    simp
                  have hsome := hv [ch0] hhead
                  rw [(hprops' ch0 (List.mem_cons_self _ _)).2] at hsome
                  simp at hsome
        · rcases hl : encodeLoop cache fuel ((c :: rest).drop len) with _ | ⟨toks0, c0⟩ <;>
            simp only [hl] at h
          · exact Option.noConfusion h
          · injection h with h'
            injection h' with h1 h2
            have hrec := encodeLoop_concat fuel cache _ toks0 c0 hg hl
              (fun tok htok => hv tok (by rw [← h1]; exact List.mem_cons_of_mem _ htok))
            rw [← h1]
            simp only [List.flatten_cons]
            rw [hrec]
            exact List.take_append_drop len (c :: rest)

/-! ## The space-prefix branch is redundant -/

theorem take_min_20 (l : List Char) : l.take (min 20 l.length) = l.take 20 := by
  by_cases h : 20 ≤ l.length
  · rw [Nat.min_eq_left h]
  · push_neg at h
    rw [Nat.min_eq_right (by omega), List.take_length,
      List.take_of_length_le (by omega)]

/-- When the whole 20-character prefix is in the vocabulary, the
decreasing-length prefix search succeeds immediately at the maximal
length. -/
theorem findPrefixLen_of_take20 {rem : List Char} (hne : rem ≠ [])
    (h : (encLookup (rem.take 20)).isSome) :
    findPrefixLen rem = some (min 20 rem.length) := by
  have hlen : 1 ≤ rem.length := by
    cases rem with
    | nil => exact absurd rfl hne
    | cons _ _ => simp
  obtain ⟨k, hk⟩ : ∃ k, min 20 rem.length = k + 1 :=
    ⟨min 20 rem.length - 1, by omega⟩
  unfold findPrefixLen
  rw [hk, List.range_succ_eq_map]
  simp only [List.map_cons, Nat.sub_zero, List.map_map]
  rw [List.find?_cons_of_pos]
  have htake : rem.take (k + 1) = rem.take 20 := by
    rw [← hk]
    exact take_min_20 rem
  rw [htake]
  exact h

/-! ## Claim theorems -/

/-- C1, counterexample: the vocabulary mapping is NOT bijective and
construction does not reject the violating data — the two distinct token
strings `"World"` and `" World"` both carry id 2159 in the successfully
constructed encoder, and the decoder maps 2159 back to `" World"`, so
`decoder (encoder "World") ≠ "World"`. -/
theorem c1_counterexample :
    encLookup (chars "World") = some 2159 ∧
    encLookup (chars " World") = some 2159 ∧
    chars "World" ≠ chars " World" ∧
    decLookup 2159 = some (chars " World") :=
  ⟨vocabFacts.1.1, vocabFacts.1.2.1, by decide, vocabFacts.1.2.2.1⟩

/-- C1, amended: construction performs no bijectivity validation and accepts
duplicate ids (`"World"` and `" World"` both map to 2159); the decoder keeps
the last-inserted key for each id and is a right section of the encoder:
every decoder entry maps its id to a token string that encodes back to that
id. -/
theorem c1_amended :
    (∀ p ∈ decoderList, encLookup p.2 = some p.1) ∧
    encLookup (chars "World") = some 2159 ∧
    encLookup (chars " World") = some 2159 ∧
    decLookup 2159 = some (chars " World") :=
  ⟨decoder_section, vocabFacts.1.1, vocabFacts.1.2.1, vocabFacts.1.2.2.1⟩

/-- C1, witness for the amended claim at the concrete decoder entry
`(2159, " World")`. -/
theorem c1_amended_witness :
    (2159, chars " World") ∈ decoderList ∧
    encLookup (chars " World") = some 2159 :=
  ⟨vocabFacts.1.2.2.2.1, c1_amended.1 (2159, chars " World") vocabFacts.1.2.2.2.1⟩

/-- C2: with the rank table holding only the pair `("l","l")` at rank 0, the
BPE merge of the chunk `"llama"` merges the first adjacent `("l","l")` into
`"ll"`, stops (no remaining pair is ranked), and returns the sub-symbols
`["ll","a","m","a"]` joined by single spaces (caching the result). -/
theorem c2_llama_merge :
    bpe [((chars "l", chars "l"), 0)] [] (chars "llama") =
      some (chars "ll a m a", [(chars "llama", chars "ll a m a")]) ∧
    splitOnSpace (chars "ll a m a") = [chars "ll", chars "a", chars "m", chars "a"] := by
  decide

/-- C3: the byte-to-symbol map is a total bijection between the 256 byte
values and 256 pairwise-distinct single-character symbols, and the
byte-to-symbol-to-byte round trip is the identity on every byte value. -/
theorem c3_byte_bijection :
    bytesToUnicode.length = 256 ∧
    (bytesToUnicode.map Prod.snd).Nodup ∧
    ∀ b, b < 256 → ∃ ch, byteEncoder b = some ch ∧ byteDecoder ch = some b := by
  refine ⟨bytesToUnicode_length, bytesToUnicode_symsNodup, ?_⟩
  intro b hb
  have hs := byteEncoder_isSome hb
  rcases he : byteEncoder b with _ | ch
  · rw [he] at hs
    simp at hs
  · exact ⟨ch, rfl, byteDecoder_byteEncoder he⟩

/-- C3, witness at byte 65. -/
theorem c3_witness :
    65 < 256 ∧ ∃ ch, byteEncoder 65 = some ch ∧ byteDecoder ch = some 65 :=
  ⟨by decide, c3_byte_bijection.2.2 65 (by decide)⟩

/-- C4, counterexample: the character U+00E9 is absent from the vocabulary
and from every side of the merge-rank table, yet `encode` on the
one-character string returns TWO fallback ids `[0, 0]` (one per UTF-8 byte),
not a single fallback id. -/
theorem c4_counterexample :
    encLookup [Char.ofNat 233] = none ∧
    (∀ p ∈ bpeRanks, p.1.1 ≠ [Char.ofNat 233] ∧ p.1.2 ≠ [Char.ofNat 233]) ∧
    (encode [] [Char.ofNat 233]).1 = some [0, 0] :=
  ⟨vocabFacts.2.2.1.2.1, vocabFacts.2.1.2.2.2, vocabFacts.2.2.1.2.2.1⟩

/-- C4, amended: for every character absent from both the vocabulary and
every side of the merge-rank table, `encode` on the one-character string
never fails and returns exactly one fallback id 0 per UTF-8 byte of the
character (so one id for ASCII characters, two to four for multi-byte
ones). -/
theorem c4_amended (c : Char) (h1 : encLookup [c] = none)
    (h2 : ∀ p ∈ bpeRanks, p.1.1 ≠ [c] ∧ p.1.2 ≠ [c]) :
    (encode [] [c]).1 = some (List.replicate (utf8BytesOfChar c).length 0) := by
  obtain ⟨token, hbs, hlen, hne, hprops, hranks⟩ := bytePath c h1
  obtain ⟨res, cache₂, hbpe, hres, hg₂⟩ := bpe_goodCache goodCache_nil token hne
  obtain ⟨res2, hres2, hsplit⟩ := bpeResult_singletons token hne
    (fun ch hch => (hprops ch hch).1) hranks
  rw [hres] at hres2
  injection hres2 with heq
  subst heq
  have hcsp : ¬(c = spaceChar ∧ (encLookup (([c] : List Char).take 20)).isSome = true) := by
    rintro ⟨_, hc2⟩
    rw [show ([c] : List Char).take 20 = [c] from rfl, h1] at hc2
    simp at hc2
  have hfp : findPrefixLen [c] = none := by
    unfold findPrefixLen
    rw [show min 20 ([c] : List Char).length = 1 from rfl]
    rw [show (List.range 1).map (fun i => 1 - i) = [1] from rfl]
    rw [List.find?_cons_of_neg, List.find?_nil]
    rw [show ([c] : List Char).take 1 = [c] from rfl, h1]
    simp
  have hec : ¬((encLookup [c]).isSome = true) := by
    rw [h1]
    simp
  have hloop : encodeLoop [] (([c] : List Char).length + 1) [c] =
      some (splitOnSpace res, cache₂) := by
    simp only [encodeLoop]
    rw [if_neg hcsp, hfp]
    dsimp only
    rw [if_neg hec, hbs]
    dsimp only
    rw [hbpe]
    dsimp only
    simp
  rw [encode, if_neg (show ¬([c] = ([] : List Char)) by simp), hloop]
  dsimp only
  congr 1
  rw [hsplit, List.map_map, ← hlen]
  apply List.eq_replicate.mpr
  refine ⟨by simp, ?_⟩
  intro b hb
  rcases List.mem_map.mp hb with ⟨ch, hch, he⟩
  rw [← he]
  simp only [Function.comp]
  rw [idOf, (hprops ch hch).2]
  rfl

/-- C4, witness for the amended claim at the character U+00E9 (two UTF-8
bytes, hence two fallback ids). -/
theorem c4_amended_witness :
    encLookup [Char.ofNat 233] = none ∧
    (∀ p ∈ bpeRanks, p.1.1 ≠ [Char.ofNat 233] ∧ p.1.2 ≠ [Char.ofNat 233]) ∧
    (encode [] [Char.ofNat 233]).1 =
      some (List.replicate (utf8BytesOfChar (Char.ofNat 233)).length 0) :=
  ⟨vocabFacts.2.2.1.2.1, vocabFacts.2.1.2.2.2,
   c4_amended (Char.ofNat 233) vocabFacts.2.2.1.2.1 vocabFacts.2.1.2.2.2⟩

/-- C5, counterexample: `encode "World"` produces the single id 2159 from
the in-vocabulary token `"World"` with no fallback, the id 2159 maps back to
the in-vocabulary string `" World"`, and `decode (encode "World")` yields
`" World" ≠ "World"` — the round trip fails although every produced id maps
back to an in-vocabulary string with no fallback substitution. -/
theorem c5_counterexample :
    (encode [] (chars "World")).1 = some [2159] ∧
    encLookup (chars "World") = some 2159 ∧
    decLookup 2159 = some (chars " World") ∧
    decode [2159] = chars " World" ∧
    chars " World" ≠ chars "World" :=
  ⟨vocabFacts.2.2.1.2.2.2.1, vocabFacts.1.1, vocabFacts.1.2.2.1,
   vocabFacts.2.2.1.2.2.2.2.1, by decide⟩

/-- C5, amended: `decode (encode t)` reconstructs `t` whenever every token
produced by the encode loop is an in-vocabulary string whose id decodes
back to that very token (i.e. the token is the decoder's image of its id).
The extra decoder condition is what the duplicate-id counterexample
forces. -/
theorem c5_amended (t : List Char) (toks : List Token) (cache' : Cache)
    (henc : encodeLoop [] (t.length + 1) t = some (toks, cache'))
    (hvocab : ∀ tok ∈ toks, ∃ id, encLookup tok = some id ∧ decLookup id = some tok) :
    (encode [] t).1 = some (toks.map idOf) ∧ decode (toks.map idOf) = t := by
  have hflat : toks.flatten = t :=
    encodeLoop_concat (t.length + 1) [] t toks cache' goodCache_nil henc
      (fun tok htok => by
        obtain ⟨id, hid, _⟩ := hvocab tok htok
        rw [hid]
        simp)
  constructor
  · by_cases h : t = []
    · subst h
      have h0 : (some (([] : List Token), ([] : Cache)) : Option (List Token × Cache)) =
          some (toks, cache') := henc
      injection h0 with h0'
      injection h0' with ha hb
      rw [← ha]
      rfl
    · simp [encode, if_neg h, henc]
  · have hmap : toks.map ((fun id => (decLookup id).getD [Char.ofNat 0xFFFD]) ∘ idOf) = toks := by
      apply map_id_of_eq
      intro tok htok
      obtain ⟨id, hid, hdec⟩ := hvocab tok htok
      simp only [Function.comp, idOf, hid]
      rw [show (some id).getD 0 = id from rfl, hdec]
      rfl
    simp only [decode]
    rw [List.map_map, hmap, hflat]

/-- C5, witness for the amended claim on the text `"Hello"`: the single
produced token `"Hello"` has id 15496, which decodes back to `"Hello"`, and
the round trip reconstructs the text. -/
theorem c5_amended_witness :
    encodeLoop [] ((chars "Hello").length + 1) (chars "Hello") =
      some ([chars "Hello"], []) ∧
    (∀ tok ∈ [chars "Hello"], ∃ id, encLookup tok = some id ∧ decLookup id = some tok) ∧
    (encode [] (chars "Hello")).1 = some ([chars "Hello"].map idOf) ∧
    decode ([chars "Hello"].map idOf) = chars "Hello" := by
  have h1 : encodeLoop [] ((chars "Hello").length + 1) (chars "Hello") =
      some ([chars "Hello"], []) := vocabFacts.2.2.2.1
  have h2 : ∀ tok ∈ [chars "Hello"], ∃ id, encLookup tok = some id ∧ decLookup id = some tok := by
    intro tok htok
    rw [List.mem_singleton] at htok
    subst htok
    exact ⟨15496, vocabFacts.2.2.2.2.1, vocabFacts.2.2.2.2.2.1⟩
  have h3 := c5_amended (chars "Hello") [chars "Hello"] [] h1 h2
  exact ⟨h1, h2, h3.1, h3.2⟩

/-- Totality of `encode` and `count_tokens` on the Unicode-scalar-value
domain (texts without lone surrogates): for every such text and every
cache state they terminate and return an id sequence resp. its length.
This is the sound part of the totality story; totality fails on the full
Python-str domain, where a lone surrogate makes the UTF-8 byte path
raise. -/
theorem encode_countTokens_total_scalars :
    ∀ (text : List Char) (cache : Cache), ∃ ids : List Nat,
      (encode cache text).1 = some ids ∧ (countTokens cache text).1 = some ids.length := by
  intro text cache
  by_cases h : text = []
  · subst h
    exact ⟨[], rfl, rfl⟩
  · have hs := encodeLoop_isSome (text.length + 1) cache text (by omega)
    rcases hl : encodeLoop cache (text.length + 1) text with _ | ⟨toks, cache'⟩
    · rw [hl] at hs
      simp at hs
    · refine ⟨toks.map idOf, ?_, ?_⟩
      · simp [encode, if_neg h, hl]
      · simp [countTokens, encode, if_neg h, hl]

/-- C6, refuted: `encode` and `count_tokens` are not total over all string
inputs.  A Python str may hold the lone surrogate U+D800 (code point 55296,
a valid one-character str, never a vocabulary key): on it the greedy prefix
search and the single-character lookup both miss, the byte path runs
`token.encode("utf-8")` (source line 178), CPython raises
`UnicodeEncodeError`, and `encode` / `count_tokens` raise
`TokenizationError` — modelled as the `none` results below. -/
theorem c6_surrogate_failure :
    (55296 : Nat) < 1114112 ∧
    encLookupCp [55296] = none ∧
    utf8BytesOfCodepoint 55296 = none ∧
    (encodeCp [] [55296]).1 = none ∧
    (countTokensCp [] [55296]).1 = none := by
  decide

/-- C7: on input text exactly equal to the special token `"<|endoftext|>"`,
`encode` emits exactly its id 50256 (the whole string is matched in the
vocabulary before any BPE decomposition). -/
theorem c7_special_token_encode :
    (encode [] (chars "<|endoftext|>")).1 = some [50256] :=
  vocabFacts.2.2.1.1

/-- C8, counterexample: on `"Helloworld"` the actual `encode` (greedy
vocabulary-prefix matching) returns `[15496, 995]`, while the
segmenter-based per-chunk pipeline the claim describes returns ten
single-character ids — `encode` does not process text as the Segmenter's
regex chunks. -/
theorem c8_counterexample :
    (encode [] (chars "Helloworld")).1 = some [15496, 995] ∧
    specSegmenterEncode (chars "Helloworld") = [54, 25, 32, 32, 35, 43, 35, 38, 32, 24] ∧
    (some [15496, 995] : Option (List Nat)) ≠ some [54, 25, 32, 32, 35, 43, 35, 38, 32, 24] :=
  ⟨vocabFacts.2.2.1.2.2.2.2.2.1, vocabFacts.2.2.1.2.2.2.2.2.2, by decide⟩

/-- C8, amended: `encode` does not use the segmenter's regex; its loop is
observationally the plain greedy longest-vocabulary-prefix loop
(`greedyLoop`): emit the id of the longest vocabulary prefix of at most 20
characters of the remaining text, and when no prefix is in the vocabulary,
process exactly the first character — its id directly when in the
vocabulary, otherwise byte-mapping it and running the merge engine.  The
source's space-prefixed look-ahead branch is redundant. -/
theorem c8_amended :
    ∀ (fuel : Nat) (cache : Cache) (rem : List Char),
      encodeLoop cache fuel rem = greedyLoop cache fuel rem
  | 0, _, _ => rfl
  | fuel + 1, cache, rem => by
    cases rem with
    | nil => rfl
    | cons c rest =>
      simp only [encodeLoop, greedyLoop]
      by_cases hsp : c = spaceChar ∧ (encLookup ((c :: rest).take 20)).isSome = true
      · rw [if_pos hsp]
        rw [findPrefixLen_of_take20 (by simp) hsp.2]
        dsimp only
        have hlen : ((c :: rest).take 20).length = min 20 (c :: rest).length := by
          rw [List.length_take]
        have htake : (c :: rest).take (min 20 (c :: rest).length) = (c :: rest).take 20 :=
          take_min_20 (c :: rest)
        rw [hlen, htake, c8_amended fuel cache ((c :: rest).drop (min 20 (c :: rest).length))]
      · rw [if_neg hsp]
        rcases hfp : findPrefixLen (c :: rest) with _ | len
        · dsimp only
          by_cases hec : (encLookup [c]).isSome = true
          · rw [if_pos hec, if_pos hec, c8_amended fuel cache rest]
          · rw [if_neg hec, if_neg hec]
            rcases hbs : byteSymToken c with _ | token
            · rfl
            · dsimp only
              rcases hb : bpe bpeRanks cache token with _ | ⟨res, cache'⟩
              · rfl
              · dsimp only
                rw [c8_amended fuel cache' rest]
        · dsimp only
          rw [c8_amended fuel cache ((c :: rest).drop len)]

/-- C9: calling `encode` twice in succession on the same text yields
identical id sequences — the cache written by the first call is good (every
stored value equals what the merge loop would recompute from a fresh cache)
and does not alter the second call's output. -/
theorem c9_idempotent (t : List Char) :
    (encode ((encode [] t).2) t).1 = (encode [] t).1 ∧
    GoodCache ((encode [] t).2) := by
  by_cases h : t = []
  · subst h
    exact ⟨rfl, goodCache_nil⟩
  · rcases hl1 : encodeLoop [] (t.length + 1) t with _ | ⟨toks, c'⟩
    · have hs := encodeLoop_isSome (t.length + 1) [] t (by omega)
      rw [hl1] at hs
      simp at hs
    · have hgood : GoodCache c' :=
        encodeLoop_goodCache (t.length + 1) [] t toks c' goodCache_nil hl1
      have he1 : encode [] t = (some (toks.map idOf), c') := by
        simp [encode, if_neg h, hl1]
      have heq := encodeLoop_tokens_eq (t.length + 1) c' [] t hgood goodCache_nil
      rcases hl2 : encodeLoop c' (t.length + 1) t with _ | ⟨toks2, c''⟩
      · rw [hl1, hl2] at heq
        simp at heq
      · rw [hl1, hl2] at heq
        simp at heq
        have he2 : encode c' t = (some (toks2.map idOf), c'') := by
          simp [encode, if_neg h, hl2]
        rw [he1]
        simp only [he2]
        exact ⟨by rw [heq], hgood⟩

/-- C10: on the empty string the facade returns without error:
`encode "" = []` and `count_tokens "" = 0`. -/
theorem c10_empty :
    (encode [] (chars "")).1 = some [] ∧ (countTokens [] (chars "")).1 = some 0 :=
  ⟨rfl, rfl⟩

end TiktokenLocal
